import Mathlib

/-!
# Verification development for the bstream block-streaming core

Shallow embedding of the `Forkable` fork-tracking state machine
(`forkable.go`) and the `FileSource` block-index / stream-reader logic
(`filesource.go`), together with theorems checking the natural-language
specification against the code.

The `ForkDB` operations themselves are not part of the given sources (only
their callers in `Forkable` are); every `ForkDB` operation below is
modelled from the spec, as indicated in its doc comment.
-/

namespace Bstream

/-- A block reference: pair `(id, num)`.  The distinguished empty ref has
`id = ""` and `num = 0`. -/
structure BlockRef where
  id : String
  num : Nat
deriving Repr, DecidableEq

/-- The empty block reference. -/
def BlockRef.empty : BlockRef := ⟨"", 0⟩

/-- A decoded block: `id`, `num`, `previous_id` and the LIB number the block
asserts.  The opaque payload is irrelevant to the verified properties and is
omitted. -/
structure Blk where
  id : String
  previousId : String
  num : Nat
  libNum : Nat
deriving Repr, DecidableEq

/-- The reference of a block. -/
def Blk.ref (b : Blk) : BlockRef := ⟨b.id, b.num⟩

/-- Step kinds attached to emitted blocks. -/
inductive StepKind where
  | new
  | undo
  | irreversible
  | newIrreversible
  | stalled
deriving Repr, DecidableEq

/-- The step filter of a `Forkable` (`filterSteps` bitmask in the source,
modelled as one flag per maskable step kind). -/
structure StepFilter where
  new : Bool
  undo : Bool
  irreversible : Bool
  stalled : Bool
deriving Repr, DecidableEq

/-- `bstream.StepsAll`: every step kind passes the filter. -/
def StepFilter.all : StepFilter := ⟨true, true, true, true⟩

/-- One emission to the downstream handler: the step, the emitted block's
ref, the head-block ref and the `lastLIBSent` ref carried by the wrapping
`ForkableObject`. -/
structure Emit where
  step : StepKind
  block : BlockRef
  head : BlockRef
  lib : BlockRef
deriving Repr, DecidableEq

/-- Outcome of a `ProcessBlock` call: ok (`nil` error), an error return, or
a Go panic. -/
inductive Outcome where
  | ok
  | err (msg : String)
  | panic
deriving Repr, DecidableEq

/-! ## ForkDB

The Go `ForkDB` keeps three maps keyed by block id (`links`, `nums`,
`objects`), always inserted into and purged together; we model the three as
a single association list from id to the stored block.  The `sentAsNew` flag
lives on the heap-allocated `ForkableBlock` object of each id; purging drops
the map entries but live references keep the object (and its flag) alive, so
the flag set is kept separately and is never purged (it is reset for an id
when `AddLink` stores a fresh object for it). -/

/-- The fork DAG.  `entries` maps a block id to its block (giving
`links`, `nums` and `objects` of the Go struct at once); `libRef` is the
current LIB (initially empty); `sent` is the set of ids whose stored
`ForkableBlock` has `sentAsNew = true`. -/
structure ForkDB where
  entries : List (String × Blk)
  libRef : BlockRef
  sent : List String
deriving Repr, DecidableEq

/-- A fresh, empty fork DB (`NewForkDB`). -/
def ForkDB.new : ForkDB := ⟨[], BlockRef.empty, []⟩

/-- Modelled from the spec: `HasLIB()` is true iff `lib_ref` is non-empty. -/
def ForkDB.hasLIB (db : ForkDB) : Bool := db.libRef.id ≠ ""

/-- Modelled from the spec: the id of the current LIB (empty when unset). -/
def ForkDB.libID (db : ForkDB) : String := db.libRef.id

/-- Modelled from the spec: the number of the current LIB (0 when unset). -/
def ForkDB.libNum (db : ForkDB) : Nat := db.libRef.num

/-- Modelled from the spec: `BlockForID(id)` looks the node up, `none` when
the id is unknown. -/
def ForkDB.blockForID (db : ForkDB) (id : String) : Option Blk :=
  (db.entries.lookup id)

/-- Modelled from the spec: `AddLink(block, previous_id, payload)` returns
`true` (and modifies nothing) when the id is already present; otherwise it
records the node.  A freshly stored `ForkableBlock` has `sentAsNew = false`,
so the id is removed from the flag set on insertion. -/
def ForkDB.addLink (db : ForkDB) (blk : Blk) : ForkDB × Bool :=
  match db.entries.lookup blk.id with
  | some _ => (db, true)
  | none =>
      ({ db with
          entries := (blk.id, blk) :: db.entries
          sent := db.sent.erase blk.id }, false)

/-- Modelled from the spec: `SetLIB(block, previous_id, lib_num)` resolves
the block of number `lib_num` reachable from `block` following
`previous_id` links and sets `lib_ref` to it; if `lib_num == block.num`,
`lib_ref` becomes the block itself; if no such linked ancestor exists yet,
`lib_ref` stays empty. -/
def ForkDB.setLIBWalk (db : ForkDB) (libNum : Nat) : Nat → String → Option BlockRef
  | 0, _ => none
  | fuel + 1, cur =>
      match db.entries.lookup cur with
      | none => none
      | some b =>
          if b.num = libNum then some b.ref
          else db.setLIBWalk libNum fuel b.previousId

/-- Modelled from the spec: see `ForkDB.setLIBWalk`. -/
def ForkDB.setLIB (db : ForkDB) (blk : Blk) : ForkDB :=
  if blk.libNum = blk.num then { db with libRef := blk.ref }
  else
    match db.setLIBWalk blk.libNum (db.entries.length + 1) blk.previousId with
    | some r => { db with libRef := r }
    | none => db

/-- Modelled from the spec: the backward walk of `ReversibleSegment`,
collecting nodes from the head down, stopping at the LIB (excluded) or at a
missing parent; fails closed (`none`) when a LIB is set but not reached, or
when the cycle guard trips. -/
def ForkDB.rsWalk (db : ForkDB) : Nat → String → List Blk → Option (List Blk) × Bool
  | 0, _, _ => (none, false)
  | fuel + 1, cur, acc =>
      if cur = db.libID then (some acc, true)
      else
        match db.entries.lookup cur with
        | none => if db.hasLIB then (none, false) else (some acc, false)
        | some b => db.rsWalk fuel b.previousId (b :: acc)

/-- Modelled from the spec: `ReversibleSegment(head)` returns the chain from
just above the LIB up to `head` (oldest first) together with whether the LIB
was reached; `none` when the head is not linked to a set LIB. -/
def ForkDB.reversibleSegment (db : ForkDB) (head : BlockRef) : Option (List Blk) × Bool :=
  db.rsWalk (db.entries.length + 1) head.id []

/-- Modelled from the spec: the backward walk of `CompleteSegment`,
like `ForkDB.rsWalk` but including the LIB node itself when it is stored. -/
def ForkDB.csWalk (db : ForkDB) : Nat → String → List Blk → List Blk × Bool
  | 0, _, _ => ([], false)
  | fuel + 1, cur, acc =>
      if cur = db.libID then
        match db.entries.lookup cur with
        | some b => (b :: acc, true)
        | none => (acc, true)
      else
        match db.entries.lookup cur with
        | none => ([], false)
        | some b => db.csWalk fuel b.previousId (b :: acc)

/-- Modelled from the spec: `CompleteSegment(head)` returns the full path
from the LIB up to `head` (oldest first) and whether the LIB was reached. -/
def ForkDB.completeSegment (db : ForkDB) (head : BlockRef) : List Blk × Bool :=
  db.csWalk (db.entries.length + 1) head.id []

/-- Modelled from the spec: `BlockInCurrentChain(head, num)` walks from
`head` towards the LIB and returns the ref of the stored node whose number
equals `num`, or the empty ref when none is found. -/
def ForkDB.biccWalk (db : ForkDB) (target : Nat) : Nat → String → BlockRef
  | 0, _ => BlockRef.empty
  | fuel + 1, curId =>
      match db.entries.lookup curId with
      | none => BlockRef.empty
      | some b =>
          if b.num = target then ⟨curId, b.num⟩
          else if curId = db.libID then BlockRef.empty
          else db.biccWalk target fuel b.previousId

/-- Modelled from the spec: see `ForkDB.biccWalk`. -/
def ForkDB.blockInCurrentChain (db : ForkDB) (head : BlockRef) (num : Nat) : BlockRef :=
  db.biccWalk num (db.entries.length + 1) head.id

/-- Modelled from the spec: backward walk used by `ChainSwitchSegments`,
collecting the ids of linked nodes from a head down (a seen-set guards
against cycles). -/
def ForkDB.cssWalk (db : ForkDB) : Nat → String → List String → List String
  | 0, _, acc => acc.reverse
  | fuel + 1, cur, acc =>
      match db.entries.lookup cur with
      | none => acc.reverse
      | some b =>
          if cur ∈ acc then acc.reverse
          else db.cssWalk fuel b.previousId (cur :: acc)

/-- Modelled from the spec: `ChainSwitchSegments(from_id, to_id)` finds the
lowest common ancestor by walking both chains backward and returns the undo
ids (head to junction, most recent first) and the redo ids (junction to
head, oldest first); both empty when no junction exists. -/
def ForkDB.chainSwitchSegments (db : ForkDB) (fromId toId : String) :
    List String × List String :=
  let undoChain := db.cssWalk (db.entries.length + 1) fromId []
  let redoChain := db.cssWalk (db.entries.length + 1) toId []
  match redoChain.find? (fun id => decide (id ∈ undoChain)) with
  | none => ([], [])
  | some j => (undoChain.takeWhile (· ≠ j), (redoChain.takeWhile (· ≠ j)).reverse)

/-- Modelled from the spec: walk of `HasNewIrreversibleSegment` from the
candidate new LIB down to the current LIB (exclusive), oldest first. -/
def ForkDB.hnisWalk (db : ForkDB) : Nat → String → List Blk → List Blk
  | 0, _, _ => []
  | fuel + 1, cur, acc =>
      if cur = db.libID then acc
      else
        match db.entries.lookup cur with
        | none => []
        | some b => db.hnisWalk fuel b.previousId (b :: acc)

/-- Modelled from the spec: `HasNewIrreversibleSegment(new_lib)` returns
whether the LIB advances, the nodes between the current LIB (exclusive) and
`new_lib` (inclusive, oldest first), and the stalled nodes: all other nodes
with `num ≤ new_lib.num` that are not on that path (nor the current LIB). -/
def ForkDB.hasNewIrreversibleSegment (db : ForkDB) (newLib : BlockRef) :
    Bool × List Blk × List Blk :=
  let seg := db.hnisWalk (db.entries.length + 1) newLib.id []
  let segIds := seg.map Blk.id
  let stalled := (db.entries.filter (fun e =>
      decide (e.2.num ≤ newLib.num) &&
      !(decide (e.1 ∈ segIds)) && !(decide (e.1 = db.libID)))).map Prod.snd
  (!seg.isEmpty, seg, stalled)

/-- Modelled from the spec: `MoveLIB(new_lib)` monotonically advances
`lib_ref`. -/
def ForkDB.moveLIB (db : ForkDB) (newLib : BlockRef) : ForkDB :=
  { db with libRef := newLib }

/-- Modelled from the spec: `PurgeBeforeLIB(kept)` removes every node with
`num < lib_ref.num - kept` (the flag set, which models the heap-resident
`sentAsNew` flags, survives). -/
def ForkDB.purgeBeforeLIB (db : ForkDB) (kept : Nat) : ForkDB :=
  { db with entries := db.entries.filter (fun e => !decide (e.2.num < db.libRef.num - kept)) }

/-! ## Forkable -/

/-- The `Forkable` state (`forkable.go`, `type Forkable struct`).  The
downstream handler is modelled as an emission collector that never errors;
logger and lock are irrelevant to the verified properties. -/
structure Forkable where
  forkDB : ForkDB
  lastBlockSent : Option Blk
  lastLIBSeen : BlockRef
  filterSteps : StepFilter
  ensureBlockFlows : BlockRef
  ensureBlockFlowed : Bool
  ensureAllBlocksTriggerLongestChain : Bool
  holdBlocksUntilLIB : Bool
  keptFinalBlocks : Nat
  includeInitialLIB : Bool
  consecutiveUnlinkableBlocks : Nat
  lastLongestChain : Option (List Blk)
deriving Repr, DecidableEq

/-- `New(h)` with no options: the default `Forkable`. -/
def Forkable.new : Forkable where
  forkDB := ForkDB.new
  lastBlockSent := none
  lastLIBSeen := BlockRef.empty
  filterSteps := StepFilter.all
  ensureBlockFlows := BlockRef.empty
  ensureBlockFlowed := false
  ensureAllBlocksTriggerLongestChain := false
  holdBlocksUntilLIB := false
  keptFinalBlocks := 0
  includeInitialLIB := false
  consecutiveUnlinkableBlocks := 0
  lastLongestChain := none

/-- `matchFilter`: whether a maskable step kind passes `filterSteps`
(`p.filterSteps & filter != 0`). -/
def Forkable.matchFilter (p : Forkable) (k : StepKind) : Bool :=
  match k with
  | .new => p.filterSteps.new
  | .undo => p.filterSteps.undo
  | .irreversible => p.filterSteps.irreversible
  | .stalled => p.filterSteps.stalled
  | .newIrreversible => p.filterSteps.new || p.filterSteps.irreversible

/-- `targetChainBlock`: the ref whose chain is recomputed — the
`ensureBlockFlows` ref while its latch is pending, else the incoming
block. -/
def Forkable.targetChainBlock (p : Forkable) (blk : Blk) : BlockRef :=
  if p.ensureBlockFlows.id ≠ "" ∧ ¬p.ensureBlockFlowed then p.ensureBlockFlows
  else blk.ref

/-- `triggersNewLongestChain`. -/
def Forkable.triggersNewLongestChain (p : Forkable) (blk : Blk) : Bool :=
  if p.ensureAllBlocksTriggerLongestChain then true
  else
    match p.lastBlockSent with
    | none => true
    | some lbs => decide (blk.num > lbs.num)

/-- `computeNewLongestChain` (without the write-back of the cache, which the
caller performs): the optimized in-place append when the incoming block
extends the cached chain and the LIB has not moved, else a fresh
`ReversibleSegment`. -/
def Forkable.computeNewLongestChain (p : Forkable) (blk : Blk) : Option (List Blk) :=
  let lc := p.lastLongestChain.getD []
  let canSkip :=
    lc ≠ [] ∧
    blk.previousId = (lc.getLast?.map Blk.id).getD "" ∧
    p.forkDB.libID = (lc.head?.map Blk.previousId).getD ""
  if canSkip then some (lc ++ [blk])
  else (p.forkDB.reversibleSegment (p.targetChainBlock blk)).1

/-- The `lastLIBSent` ref attached to `New`/`Undo` emissions: `lastLIBSeen`
when non-empty, else the fork DB's `lib_ref`. -/
def Forkable.libSentRef (p : Forkable) : BlockRef :=
  if p.lastLIBSeen = BlockRef.empty then p.forkDB.libRef else p.lastLIBSeen

/-- `sentChainSegment(ids, doingRedos)`: resolves each id in the fork DB
(`none` models the Go panic on a failed lookup) and, when collecting redos,
keeps only blocks previously sent as `New`. -/
def Forkable.sentChainSegment (db : ForkDB) (ids : List String) (doingRedos : Bool) :
    Option (List Blk) :=
  match ids with
  | [] => some []
  | id :: rest =>
      match db.blockForID id with
      | none => none
      | some b =>
          match Forkable.sentChainSegment db rest doingRedos with
          | none => none
          | some bs =>
              if doingRedos ∧ id ∉ db.sent then some bs
              else some (b :: bs)

/-- `sentChainSwitchSegments`: the undo and redo `ForkableBlock` lists for a
chain switch (`none` models a panic inside `sentChainSegment`). -/
def Forkable.sentChainSwitchSegments (p : Forkable) (currentHeadBlockID newHeadsPreviousID : String) :
    Option (List Blk × List Blk) :=
  if currentHeadBlockID = newHeadsPreviousID then some ([], [])
  else
    let (undoIDs, redoIDs) := p.forkDB.chainSwitchSegments currentHeadBlockID newHeadsPreviousID
    match Forkable.sentChainSegment p.forkDB undoIDs false,
          Forkable.sentChainSegment p.forkDB redoIDs true with
    | some undos, some redos => some (undos, redos)
    | _, _ => none

/-- `processBlocks(currentBlock, blocks, step)`: one emission per block, in
order, wrapping the step, the incoming block as head and the current
`lastLIBSent`; the collector handler never errors. -/
def Forkable.processBlocksEmit (p : Forkable) (currentBlock : BlockRef)
    (blocks : List Blk) (step : StepKind) : List Emit :=
  blocks.map (fun b => ⟨step, b.ref, currentBlock, p.libSentRef⟩)

/-- `blockFlowed`: flips the `ensureBlockFlowed` latch when the designated
block goes by. -/
def Forkable.blockFlowed (p : Forkable) (b : Blk) : Forkable :=
  if p.ensureBlockFlows.id = "" then p
  else if p.ensureBlockFlowed then p
  else if b.id = p.ensureBlockFlows.id then { p with ensureBlockFlowed := true }
  else p

/-- The loop of `processNewBlocks`: walks the chain oldest to head, skipping
blocks already flagged `sentAsNew`; each remaining block is emitted as `New`
when the filter allows, flagged, and recorded as `lastBlockSent`. -/
def Forkable.processNewBlocksGo (headRef : BlockRef) : Forkable → List Blk → Forkable × List Emit
  | p, [] => (p, [])
  | p, b :: rest =>
      if b.id ∈ p.forkDB.sent then Forkable.processNewBlocksGo headRef p rest
      else
        let em := if p.matchFilter .new then [⟨StepKind.new, b.ref, headRef, p.libSentRef⟩] else []
        let q := p.blockFlowed b
        let q := { q with
            forkDB := { q.forkDB with sent := b.id :: q.forkDB.sent }
            lastBlockSent := some b }
        let r := Forkable.processNewBlocksGo headRef q rest
        (r.1, em ++ r.2)

/-- `processNewBlocks(longestChain)`: the head block of every emission is
the chain's last element. -/
def Forkable.processNewBlocks (p : Forkable) (chain : List Blk) : Forkable × List Emit :=
  Forkable.processNewBlocksGo ((chain.getLast?.map Blk.ref).getD BlockRef.empty) p chain

/-- `processIrreversibleSegment(segment, headBlock)`: emits the segment as
`Irreversible` (each block is its own `lastLIBSent`) when the filter allows,
and always records the segment's last block as `lastLIBSeen`. -/
def Forkable.processIrreversibleSegment (p : Forkable) (seg : List Blk)
    (headBlock : BlockRef) : Forkable × List Emit :=
  let ems := if p.matchFilter .irreversible then
      seg.map (fun b => ⟨StepKind.irreversible, b.ref, headBlock, b.ref⟩)
    else []
  let p :=
    match seg.getLast? with
    | some irr => { p with lastLIBSeen := irr.ref }
    | none => p
  (p, ems)

/-- `processStalledSegment(stalledBlocks, headBlock)`. -/
def Forkable.processStalledSegment (p : Forkable) (stalled : List Blk)
    (headBlock : BlockRef) : List Emit :=
  if p.matchFilter .stalled then
    stalled.map (fun b => ⟨StepKind.stalled, b.ref, headBlock, p.lastLIBSeen⟩)
  else []

/-- `processInitialInclusiveIrreversibleBlock(blk, obj, sendAsNew)`.  The Go
code builds a fresh `ForkableBlock` that is not stored in the fork DB, so
the `sentAsNew` write on it is lost: the per-id flag set is deliberately not
updated here. -/
def Forkable.processInitialInclusiveIrreversibleBlock (p : Forkable) (blk : Blk)
    (sendAsNew : Bool) : Forkable × List Emit × Outcome :=
  let pn : Forkable × List Emit :=
    if sendAsNew then
      ({ p.blockFlowed blk with lastBlockSent := some blk },
        if p.matchFilter .new then [⟨StepKind.new, blk.ref, blk.ref, p.libSentRef⟩] else [])
    else (p, [])
  let emsIrr := if pn.1.matchFilter .irreversible then
      [⟨StepKind.irreversible, blk.ref, blk.ref, blk.ref⟩] else []
  ({ pn.1 with lastLIBSeen := blk.ref }, pn.2 ++ emsIrr, .ok)

/-- Result of the `AddLink` / LIB-bootstrap section of `ProcessBlock`
(lines 371–388 of the source): the block already existed, the just-set LIB
equals the incoming block (initial inclusive path), blocks are held until a
LIB is known, or processing proceeds with the updated state and the optional
first irreversible block. -/
inductive LinkPhase where
  | alreadyExists
  | initialEdge (p : Forkable)
  | hold (p : Forkable)
  | proceed (p : Forkable) (firstIrr : Option Blk)
deriving Repr, DecidableEq

/-- The `AddLink` / LIB-bootstrap section of `ProcessBlock`. -/
def Forkable.linkPhase (p : Forkable) (blk : Blk) : LinkPhase :=
  let link := p.forkDB.addLink blk
  if link.2 then .alreadyExists
  else
    let p1 := { p with forkDB := link.1 }
    if ¬p1.forkDB.hasLIB then
      let p2 := { p1 with forkDB := p1.forkDB.setLIB blk }
      if p2.forkDB.hasLIB then
        if p2.forkDB.libRef.num = blk.num then .initialEdge p2
        else .proceed p2 (p2.forkDB.blockForID p2.forkDB.libRef.id)
      else if p2.holdBlocksUntilLIB then .hold p2
      else .proceed p2 none
    else .proceed p1 none

/-- The emission and LIB-advance section of `ProcessBlock` (lines 410–480):
undos, redos, new blocks of the longest chain, then `MoveLIB`, purge and the
irreversible and stalled segments when the LIB advances. -/
def Forkable.emitPhase (p : Forkable) (blk : Blk) (undos redos chain : List Blk)
    (firstIrr : Option Blk) : Forkable × List Emit × Outcome :=
  let emU := if p.matchFilter .undo then p.processBlocksEmit blk.ref undos .undo else []
  let emR := if p.matchFilter .new then p.processBlocksEmit blk.ref redos .new else []
  let pn := p.processNewBlocks chain
  let p4 := pn.1
  let pre := emU ++ emR ++ pn.2
  match p4.lastBlockSent with
  | none => (p4, pre, .ok)
  | some h =>
      if ¬p4.forkDB.hasLIB then (p4, pre, .ok)
      else
        let libRef := p4.forkDB.blockInCurrentChain h.ref h.libNum
        if libRef.id = "" then (p4, pre, .ok)
        else
          let hnis := p4.forkDB.hasNewIrreversibleSegment libRef
          let seg := hnis.2.1 ++ firstIrr.toList
          if ¬hnis.1 ∧ firstIrr = none then (p4, pre, .ok)
          else
            let p5 := { p4 with
                forkDB := (p4.forkDB.moveLIB libRef).purgeBeforeLIB p4.keptFinalBlocks }
            let pi := p5.processIrreversibleSegment seg blk.ref
            let emS := pi.1.processStalledSegment hnis.2.2 blk.ref
            (pi.1, pre ++ pi.2 ++ emS, .ok)

/-- The longest-chain / unlinkable-counter section of `ProcessBlock`
(lines 390–424): recomputes the longest chain, tracks consecutive
unlinkable blocks (fatal past 20), and falls through to the emission phase
when the call triggers a new longest chain. -/
def Forkable.computePhase (p : Forkable) (blk : Blk) (triggers : Bool)
    (undos redos : List Blk) (firstIrr : Option Blk) : Forkable × List Emit × Outcome :=
  let chain := p.computeNewLongestChain blk
  let p := { p with lastLongestChain := chain }
  if chain = none ∧ p.forkDB.hasLIB then
    let p := { p with consecutiveUnlinkableBlocks := p.consecutiveUnlinkableBlocks + 1 }
    if p.consecutiveUnlinkableBlocks > 20 then
      (p, [], .err "too many consecutive unlinkable blocks")
    else (p, [], .ok)
  else
    let p := { p with consecutiveUnlinkableBlocks := 0 }
    if ¬triggers ∨ chain.getD [] = [] then (p, [], .ok)
    else p.emitPhase blk undos redos (chain.getD []) firstIrr

/-- The chain-switch precompute of `ProcessBlock` (lines 364–369): the undo
and redo blocks, computed only when the undo filter is on, a new longest
chain is triggered and something was already sent. -/
def Forkable.urSegments (p : Forkable) (blk : Blk) : Option (List Blk × List Blk) :=
  if p.matchFilter .undo ∧ p.triggersNewLongestChain blk ∧ p.lastBlockSent.isSome then
    p.sentChainSwitchSegments ((p.lastBlockSent.map Blk.id).getD "") blk.previousId
  else some ([], [])

/-- Whether a `ProcessBlock` call reaches the longest-chain recomputation
(line 390): no early return was taken before it. -/
def Forkable.reachesCompute (p : Forkable) (blk : Blk) : Bool :=
  !decide (blk.id = blk.previousId) &&
  !decide (blk.num < p.forkDB.libNum ∧ p.lastBlockSent.isSome) &&
  !decide (p.includeInitialLIB ∧ p.lastBlockSent = none ∧ blk.id = p.forkDB.libID) &&
  (p.urSegments blk).isSome &&
  (match p.linkPhase blk with | .proceed _ _ => true | _ => false)

/-- The `Forkable` state at the longest-chain recomputation point (only
meaningful when `reachesCompute`). -/
def Forkable.stateAtCompute (p : Forkable) (blk : Blk) : Forkable :=
  match p.linkPhase blk with
  | .proceed p2 _ => p2
  | _ => p

/-- The longest chain a `ProcessBlock` call computes at line 390 (only
meaningful when `reachesCompute`). -/
def Forkable.computedChain (p : Forkable) (blk : Blk) : Option (List Blk) :=
  (p.stateAtCompute blk).computeNewLongestChain blk

/-- `ProcessBlock(blk, obj)` (lines 335–481 of the source): validation,
below-LIB gate, initial-LIB shortcut, chain-switch precompute, insertion,
LIB bootstrap, longest-chain recomputation and the emission pipeline. -/
def Forkable.processBlock (p : Forkable) (blk : Blk) : Forkable × List Emit × Outcome :=
  if blk.id = blk.previousId then
    (p, [], .err "invalid block ID detected, bad data")
  else if blk.num < p.forkDB.libNum ∧ p.lastBlockSent.isSome then (p, [], .ok)
  else
    let triggers := p.triggersNewLongestChain blk
    if p.includeInitialLIB ∧ p.lastBlockSent = none ∧ blk.id = p.forkDB.libID then
      p.processInitialInclusiveIrreversibleBlock blk true
    else
      match p.urSegments blk with
      | none => (p, [], .panic)
      | some (undos, redos) =>
          match p.linkPhase blk with
          | .alreadyExists => (p, [], .ok)
          | .initialEdge p2 => p2.processInitialInclusiveIrreversibleBlock blk true
          | .hold p2 => (p2, [], .ok)
          | .proceed p2 firstIrr => p2.computePhase blk triggers undos redos firstIrr

/-- Folds `ProcessBlock` over a list of blocks, collecting every emission in
order (outcomes are dropped, as a driver feeding the next block would). -/
def Forkable.runBlocks (p : Forkable) (blks : List Blk) : Forkable × List Emit :=
  blks.foldl
    (fun (acc : Forkable × List Emit) b =>
      let r := acc.1.processBlock b
      (r.1, acc.2 ++ r.2.1))
    (p, [])

/-- One step of the `BlocksFromFinal` loop (lines 102–119 of the source):
`seen` latches at the queried ref, after which every segment block is
emitted, labelled by its position relative to the LIB, with `lastLIBSent`
clamped to the block itself whenever the LIB is above it. -/
def Forkable.bffStep (p : Forkable) (blk : BlockRef) (head : Blk)
    (acc : Bool × List Emit) (b : Blk) : Bool × List Emit :=
  let seen := acc.1 || (decide (b.num = blk.num) && decide (b.id = blk.id))
  if seen then
    let lib := if p.forkDB.libRef.num > b.num then b.ref else p.forkDB.libRef
    let step := if b.num ≤ p.forkDB.libNum then StepKind.newIrreversible else StepKind.new
    (seen, acc.2 ++ [⟨step, b.ref, head.ref, lib⟩])
  else (seen, acc.2)

/-- `BlocksFromFinal(blk)` (lines 78–122 of the source).  `none` models the
nil-pointer panic the Go code hits when `lastBlockSent` is unset while a LIB
and a cached longest chain exist. -/
def Forkable.blocksFromFinal (p : Forkable) (blk : BlockRef) : Option (List Emit) :=
  if ¬p.forkDB.hasLIB then some []
  else
    match p.lastLongestChain with
    | none => some []
    | some _ =>
        match p.lastBlockSent with
        | none => none
        | some head =>
            let cs := p.forkDB.completeSegment head.ref
            if ¬cs.2 then some []
            else some ((cs.1.foldl (p.bffStep blk head) (false, [])).2)

/-! ## FileSource -/

/-- The `FileSource` configuration relevant to `lookupBlockIndex` and
`streamReader` (`filesource.go`).  The block indexer is modelled as a total
function (`BlocksInRange(base, bundleSize)`). -/
structure FileSource where
  startBlockNum : Nat
  stopBlockNum : Nat
  bundleSize : Nat
  indexer : Nat → Nat → List Nat

/-- The inner loop of `lookupBlockIndex` (lines 287–299) over one bundle's
indexed blocks: drops blocks below `startBlockNum`, prepends
`startBlockNum` when the original base is at or below it, a strictly higher
block arrives and nothing was yielded yet, and appends `stopBlockNum`
(stopping) at the first block at or above it. -/
def FileSource.bundleOut (s : FileSource) (inBase : Nat) : List Nat → List Nat → List Nat
  | [], acc => acc
  | blk :: rest, acc =>
      if blk < s.startBlockNum then s.bundleOut inBase rest acc
      else
        let acc :=
          if inBase ≤ s.startBlockNum ∧ blk > s.startBlockNum ∧ acc = [] then
            acc ++ [s.startBlockNum]
          else acc
        if s.stopBlockNum ≠ 0 ∧ blk ≥ s.stopBlockNum then acc ++ [s.stopBlockNum]
        else s.bundleOut inBase rest (acc ++ [blk])

/-- The bundle-scanning loop of `lookupBlockIndex` (lines 280–319), fueled:
`none` when the fuel runs out (the Go loop scans forward unboundedly). -/
def FileSource.lookupGo (s : FileSource) (inBase : Nat) :
    Nat → Nat → Option (Except String (Nat × List Nat))
  | 0, _ => none
  | fuel + 1, base =>
      let out := s.bundleOut inBase (s.indexer base s.bundleSize) []
      if out ≠ [] then some (.ok (base, out))
      else
        let cStart := base ≤ s.startBlockNum ∧ base + s.bundleSize > s.startBlockNum
        let cStop := s.stopBlockNum ≠ 0 ∧ base ≤ s.stopBlockNum ∧
          base + s.bundleSize > s.stopBlockNum
        if cStart ∧ cStop then some (.ok (base, [s.startBlockNum, s.stopBlockNum]))
        else if cStart then some (.ok (base, [s.startBlockNum]))
        else if cStop then some (.ok (base, [s.stopBlockNum]))
        else s.lookupGo inBase fuel (base + s.bundleSize)

/-- `FileSource.lookupBlockIndex(in)` (lines 274–320): errors when the base
is above a set stop block, else scans bundles forward. -/
def FileSource.lookupBlockIndex (s : FileSource) (fuel inBase : Nat) :
    Option (Except String (Nat × List Nat)) :=
  if s.stopBlockNum ≠ 0 ∧ inBase > s.stopBlockNum then
    some (.error "cannot call index manager with base block above stopBlockNum")
  else s.lookupGo inBase fuel inBase

/-- The per-bundle list of the claim's words (for the refinement theorem of
`lookupBlockIndex`): blocks below `start_block_num` are dropped;
`start_block_num` is prepended when the bundle contains it, a block strictly
above it arrives and nothing was yielded yet; `stop_block_num` is appended,
stopping the scan of the bundle, at the first indexed block at or above
it. -/
def FileSource.specBundleOut (s : FileSource) (base : Nat) : List Nat → List Nat → List Nat
  | [], acc => acc
  | blk :: rest, acc =>
      if blk < s.startBlockNum then s.specBundleOut base rest acc
      else
        let acc :=
          if (base ≤ s.startBlockNum ∧ s.startBlockNum < base + s.bundleSize) ∧
              blk > s.startBlockNum ∧ acc = [] then
            acc ++ [s.startBlockNum]
          else acc
        if s.stopBlockNum ≠ 0 ∧ blk ≥ s.stopBlockNum then acc ++ [s.stopBlockNum]
        else s.specBundleOut base rest (acc ++ [blk])

/-- The bundle scan of the claim's words: returns the first bundle yielding
a non-empty list; a bundle yielding no indexed blocks but overlapping
`start_block_num` or `stop_block_num` returns the minimal list of those
sentinels. -/
def FileSource.specLookupGo (s : FileSource) :
    Nat → Nat → Option (Except String (Nat × List Nat))
  | 0, _ => none
  | fuel + 1, base =>
      let out := s.specBundleOut base (s.indexer base s.bundleSize) []
      if out ≠ [] then some (.ok (base, out))
      else
        let cStart := base ≤ s.startBlockNum ∧ base + s.bundleSize > s.startBlockNum
        let cStop := s.stopBlockNum ≠ 0 ∧ base ≤ s.stopBlockNum ∧
          base + s.bundleSize > s.stopBlockNum
        if cStart ∧ cStop then some (.ok (base, [s.startBlockNum, s.stopBlockNum]))
        else if cStart then some (.ok (base, [s.startBlockNum]))
        else if cStop then some (.ok (base, [s.stopBlockNum]))
        else s.specLookupGo fuel (base + s.bundleSize)

/-- `lookupBlockIndex` as the claim's words describe it. -/
def FileSource.specLookupBlockIndex (s : FileSource) (fuel inBase : Nat) :
    Option (Except String (Nat × List Nat)) :=
  if s.stopBlockNum ≠ 0 ∧ inBase > s.stopBlockNum then
    some (.error "cannot call index manager with base block above stopBlockNum")
  else s.specLookupGo fuel inBase

/-- One result of `BlockReader.Read()`: a block with no error, a block
together with `io.EOF`, `io.EOF` with no block, or a non-EOF error. -/
inductive ReadRes where
  | blk (b : Blk)
  | eofBlk (b : Blk)
  | eofNil
  | fail (msg : String)
deriving Repr, DecidableEq

/-- The read loop of `FileSource.streamReader` (lines 359–402): which blocks
are dispatched to the preprocessor pool — and hence, in this order, to the
output channel — and how the loop terminates.  `passed` models
`previousLastBlockPassed`.  An exhausted reader keeps returning
`(nil, io.EOF)`, so the empty list terminates like `eofNil`. -/
def FileSource.streamLoop (start : Nat) (gator : Option (Blk → Bool))
    (prevLast : Option BlockRef) :
    List ReadRes → Bool → List Blk × Option String
  | [], _ => ([], none)
  | .fail msg :: _, _ => ([], some msg)
  | .eofNil :: _, _ => ([], none)
  | .eofBlk b :: rest, passed =>
      if b.num = 0 then ([], none)
      else if b.num < start then FileSource.streamLoop start gator prevLast rest passed
      else if ¬passed then
        FileSource.streamLoop start gator prevLast rest
          (decide ((prevLast.map BlockRef.id).getD "" = b.id))
      else if ((gator.map (fun g => g b)).getD true) = false then
        FileSource.streamLoop start gator prevLast rest passed
      else
        let r := FileSource.streamLoop start gator prevLast rest passed
        (b :: r.1, r.2)
  | .blk b :: rest, passed =>
      if b.num < start then FileSource.streamLoop start gator prevLast rest passed
      else if ¬passed then
        FileSource.streamLoop start gator prevLast rest
          (decide ((prevLast.map BlockRef.id).getD "" = b.id))
      else if ((gator.map (fun g => g b)).getD true) = false then
        FileSource.streamLoop start gator prevLast rest passed
      else
        let r := FileSource.streamLoop start gator prevLast rest passed
        (b :: r.1, r.2)

/-- `streamReader`: the loop starts with `previousLastBlockPassed` true
exactly when no previous last block was given. -/
def FileSource.streamReader (start : Nat) (gator : Option (Blk → Bool))
    (prevLast : Option BlockRef) (reads : List ReadRes) : List Blk × Option String :=
  FileSource.streamLoop start gator prevLast reads prevLast.isNone

/-! ## Concrete runs used by counterexamples and failing inputs -/

/-- A fork switch from `B3` to `C3, C4` and back to `B3, B4, B5`: the blocks
`B3` and `B4` travel the redo path on the switch back. -/
def chainSwitchFeed : List Blk :=
  [⟨"B1", "G", 1, 1⟩, ⟨"B2", "B1", 2, 1⟩, ⟨"B3", "B2", 3, 1⟩, ⟨"C3", "B2", 3, 1⟩,
   ⟨"C4", "C3", 4, 1⟩, ⟨"B4", "B3", 4, 1⟩, ⟨"B5", "B4", 5, 1⟩]

/-- No block resolves a LIB (`lib_num` 0 everywhere): `c` is delivered
first, its ancestors `b` and `a` arrive afterwards and do not trigger a new
longest chain, then `d` on the sibling branch `a → y → d` overtakes. -/
def undoWithoutNewFeed : List Blk :=
  [⟨"c", "b", 3, 0⟩, ⟨"b", "a", 2, 0⟩, ⟨"a", "z", 1, 0⟩, ⟨"y", "a", 2, 0⟩, ⟨"d", "y", 9, 0⟩]

/-- `A` becomes the LIB, then `U1` cannot link into the DAG: the unlinkable
counter becomes 1. -/
def unlinkableFeed : List Blk := [⟨"A", "G", 1, 1⟩, ⟨"U1", "X", 3, 1⟩]

/-! ## Claims -/

/-- C5: for every block `b` with `b.id == b.previous_id`, `ProcessBlock(b)`
returns an invalid-data error fatal to the current stream, before any
emission to the downstream handler and with no change to the `Forkable` or
`ForkDB` state. -/
theorem C5_self_parenting_rejected (p : Forkable) (blk : Blk)
    (h : blk.id = blk.previousId) :
    p.processBlock blk = (p, [], .err "invalid block ID detected, bad data") := by
  simp [Forkable.processBlock, h]

/-- Witness for C5 at a concrete self-parenting block (spec scenario 4). -/
theorem C5_self_parenting_rejected_witness :
    Forkable.new.processBlock ⟨"BX", "BX", 5, 4⟩ =
      (Forkable.new, [], .err "invalid block ID detected, bad data") :=
  C5_self_parenting_rejected Forkable.new ⟨"BX", "BX", 5, 4⟩ (by decide)

/-- C4 counterexample: a self-parenting block whose number is below the LIB
while `last_block_sent` is set makes `ProcessBlock` return the invalid-data
error, not ok — the claim as stated omits the validation step that runs
before the below-LIB gate. -/
theorem C4_counterexample :
    (let st := (Forkable.new.runBlocks [⟨"B1", "G", 1, 1⟩]).1
     (⟨"w", "w", 0, 0⟩ : Blk).num < st.forkDB.libNum ∧
     st.lastBlockSent.isSome = true ∧
     (st.processBlock ⟨"w", "w", 0, 0⟩).2.2 ≠ Outcome.ok) := by
  decide

/-- C4 (amended): for every block `b` with `b.id ≠ b.previous_id` and
`b.num < forkdb.LIBNum()`, if `last_block_sent` is non-null then
`ProcessBlock(b)` returns ok immediately, emits nothing and leaves the
`Forkable` and `ForkDB` state unchanged. -/
theorem C4_below_lib_gate (p : Forkable) (blk : Blk)
    (hid : blk.id ≠ blk.previousId)
    (hnum : blk.num < p.forkDB.libNum)
    (hsent : p.lastBlockSent.isSome) :
    p.processBlock blk = (p, [], .ok) := by
  simp [Forkable.processBlock, hid, hnum, hsent]

/-- Witness for the amended C4: replaying a low block after the LIB is at
`B1`. -/
theorem C4_below_lib_gate_witness :
    (let st := (Forkable.new.runBlocks [⟨"B1", "G", 1, 1⟩]).1
     st.processBlock ⟨"w", "x", 0, 0⟩ = (st, [], .ok)) :=
  C4_below_lib_gate _ _ (by decide) (by decide) (by decide)

/-- C2 evaluated at the failing input: with the default configuration
(`StepsAll`, no LIB resolvable), feeding
`c(3, prev b), b(2, prev a), a(1, prev z), y(2, prev a), d(9, prev y)`
emits `Undo` for `b` although no `New` for `b` was ever emitted. -/
theorem C2_undo_without_prior_new :
    ((Forkable.new.runBlocks undoWithoutNewFeed).2.map (fun e => (e.step, e.block.id))) =
      [(.new, "c"), (.undo, "c"), (.undo, "b"), (.new, "a"), (.new, "y"), (.new, "d")] ∧
    (StepKind.undo, "b") ∈
      ((Forkable.new.runBlocks undoWithoutNewFeed).2.map (fun e => (e.step, e.block.id))) ∧
    (StepKind.new, "b") ∉
      ((Forkable.new.runBlocks undoWithoutNewFeed).2.map (fun e => (e.step, e.block.id))) := by
  decide

/-- C1 counterexample: on `chainSwitchFeed` the downstream handler receives
`New` for id `B3` twice — once when `B3` is first delivered and once on the
redo path when the chain switches back from `C3, C4` to `B3, B4, B5`. -/
theorem C1_counterexample :
    ((Forkable.new.runBlocks chainSwitchFeed).2.map (fun e => (e.step, e.block.id))) =
      [(.new, "B1"), (.irreversible, "B1"), (.new, "B2"), (.new, "B3"),
       (.undo, "B3"), (.new, "C3"), (.new, "C4"),
       (.undo, "C4"), (.undo, "C3"), (.new, "B3"), (.new, "B4"), (.new, "B5")] ∧
    ((Forkable.new.runBlocks chainSwitchFeed).2.filter
      (fun e => e.step = StepKind.new && e.block.id = "B3")).length = 2 := by
  decide

/-- C6 counterexample: after `unlinkableFeed` the counter is 1; replaying
the duplicate `U1` returns ok without computing a longest chain, and the
counter stays 1 instead of resetting to zero as the claim requires of "any
other outcome". -/
theorem C6_counterexample :
    (let st := (Forkable.new.runBlocks unlinkableFeed).1
     st.consecutiveUnlinkableBlocks = 1 ∧
     (st.processBlock ⟨"U1", "X", 3, 1⟩).2.2 = Outcome.ok ∧
     (st.processBlock ⟨"U1", "X", 3, 1⟩).1.consecutiveUnlinkableBlocks = 1) := by
  decide

/-- C3 counterexample: processing a self-parenting block twice in a row
makes the second call return the invalid-data error, not ok. -/
theorem C3_counterexample :
    (let r1 := Forkable.new.processBlock ⟨"BX", "BX", 5, 4⟩
     (r1.1.processBlock ⟨"BX", "BX", 5, 4⟩).2.2 ≠ Outcome.ok) := by
  decide

/-- C10: in the `streamReader` read loop, `io.EOF` accompanied by a block of
non-zero number is handled exactly like an error-free read — the block is
filtered, dispatched to preprocessing and delivered in order rather than
dropped; `io.EOF` with no block or a block of number 0 terminates the
bundle normally; a non-EOF read error terminates the bundle with that
error. -/
theorem C10_eof_final_block_delivered (start : Nat) (gator : Option (Blk → Bool))
    (prevLast : Option BlockRef) (b : Blk) (rest : List ReadRes) (passed : Bool)
    (msg : String) :
    (b.num ≠ 0 →
      FileSource.streamLoop start gator prevLast (.eofBlk b :: rest) passed =
        FileSource.streamLoop start gator prevLast (.blk b :: rest) passed) ∧
    (b.num ≠ 0 → b.num ≥ start → ((gator.map (fun g => g b)).getD true) = true →
      FileSource.streamLoop start gator prevLast (.eofBlk b :: rest) true =
        (b :: (FileSource.streamLoop start gator prevLast rest true).1,
          (FileSource.streamLoop start gator prevLast rest true).2)) ∧
    (b.num = 0 →
      FileSource.streamLoop start gator prevLast (.eofBlk b :: rest) passed = ([], none)) ∧
    (FileSource.streamLoop start gator prevLast (.eofNil :: rest) passed = ([], none)) ∧
    (FileSource.streamLoop start gator prevLast (.fail msg :: rest) passed = ([], some msg)) := by
  refine ⟨fun h => ?_, fun h hge hg => ?_, fun h => ?_, rfl, rfl⟩
  · simp only [FileSource.streamLoop, h, if_false]
  · have hlt : ¬b.num < start := Nat.not_lt.mpr hge
    simp [FileSource.streamLoop, h, hlt, hg]
  · simp only [FileSource.streamLoop, h, if_true]

/-- Witness for C10: a two-block bundle whose last read returns the final
block together with `io.EOF`; the final block is delivered. -/
theorem C10_eof_final_block_delivered_witness :
    ((⟨"F2", "F1", 2, 0⟩ : Blk).num ≠ 0 →
      FileSource.streamLoop 0 none none [.eofBlk ⟨"F2", "F1", 2, 0⟩] true =
        FileSource.streamLoop 0 none none [.blk ⟨"F2", "F1", 2, 0⟩] true) ∧
    ((⟨"F2", "F1", 2, 0⟩ : Blk).num ≠ 0 → (⟨"F2", "F1", 2, 0⟩ : Blk).num ≥ 0 →
      ((Option.map (fun g => g ⟨"F2", "F1", 2, 0⟩) (none : Option (Blk → Bool))).getD true) = true →
      FileSource.streamLoop 0 none none [.eofBlk ⟨"F2", "F1", 2, 0⟩] true =
        (⟨"F2", "F1", 2, 0⟩ :: (FileSource.streamLoop 0 none none [] true).1,
          (FileSource.streamLoop 0 none none [] true).2)) ∧
    ((⟨"F2", "F1", 2, 0⟩ : Blk).num = 0 →
      FileSource.streamLoop 0 none none [.eofBlk ⟨"F2", "F1", 2, 0⟩] true = ([], none)) ∧
    (FileSource.streamLoop 0 none none [.eofNil] true = ([], none)) ∧
    (FileSource.streamLoop 0 none none [.fail "boom"] true = ([], some "boom")) :=
  C10_eof_final_block_delivered 0 none none ⟨"F2", "F1", 2, 0⟩ [] true "boom"

/-! ### Chain-switch lookup totality (helpers shared by several proofs) -/

/-- Every id collected by the chain-switch walk either was already in the
accumulator or has an entry in the fork DB. -/
theorem cssWalk_mem (db : ForkDB) :
    ∀ fuel cur acc x, x ∈ db.cssWalk fuel cur acc →
      x ∈ acc ∨ (db.entries.lookup x).isSome := by
  intro fuel
  induction fuel with
  | zero =>
      intro cur acc x hx
      simp only [ForkDB.cssWalk, List.mem_reverse] at hx
      exact Or.inl hx
  | succ n ih =>
      intro cur acc x hx
      simp only [ForkDB.cssWalk] at hx
      cases hcur : db.entries.lookup cur with
      | none =>
          rw [hcur] at hx
          simp only [List.mem_reverse] at hx
          exact Or.inl hx
      | some b =>
          rw [hcur] at hx
          by_cases hmem : cur ∈ acc
          · simp only [if_pos hmem, List.mem_reverse] at hx
            exact Or.inl hx
          · simp only [if_neg hmem] at hx
            rcases ih b.previousId (cur :: acc) x hx with h | h
            · rcases List.mem_cons.mp h with rfl | h
              · exact Or.inr (by simp [hcur])
              · exact Or.inl h
            · exact Or.inr h

/-- Every id returned by `ChainSwitchSegments` (on either side) has an entry
in the fork DB. -/
theorem chainSwitchSegments_lookup_isSome (db : ForkDB) (fromId toId x : String)
    (hx : x ∈ (db.chainSwitchSegments fromId toId).1 ∨
      x ∈ (db.chainSwitchSegments fromId toId).2) :
    (db.entries.lookup x).isSome := by
  simp only [ForkDB.chainSwitchSegments] at hx
  cases hfind : (db.cssWalk (db.entries.length + 1) toId []).find?
      (fun id => decide (id ∈ db.cssWalk (db.entries.length + 1) fromId [])) with
  | none => rw [hfind] at hx; simp at hx
  | some j =>
      rw [hfind] at hx
      simp only at hx
      rcases hx with hx | hx
      · have hmem : x ∈ db.cssWalk (db.entries.length + 1) fromId [] :=
          (List.takeWhile_prefix _).sublist.subset hx
        rcases cssWalk_mem db _ _ _ _ hmem with h | h
        · simp at h
        · exact h
      · rw [List.mem_reverse] at hx
        have hmem : x ∈ db.cssWalk (db.entries.length + 1) toId [] :=
          (List.takeWhile_prefix _).sublist.subset hx
        rcases cssWalk_mem db _ _ _ _ hmem with h | h
        · simp at h
        · exact h

/-- `sentChainSegment` never panics when every id resolves in the fork
DB. -/
theorem sentChainSegment_isSome (db : ForkDB) (doingRedos : Bool) :
    ∀ ids : List String, (∀ x ∈ ids, (db.entries.lookup x).isSome) →
      (Forkable.sentChainSegment db ids doingRedos).isSome := by
  intro ids
  induction ids with
  | nil => intro _; simp [Forkable.sentChainSegment]
  | cons id rest ih =>
      intro h
      have hid := h id (List.mem_cons_self id rest)
      rw [Option.isSome_iff_exists] at hid
      obtain ⟨b, hb⟩ := hid
      have hrest := ih (fun x hx => h x (List.mem_cons_of_mem id hx))
      rw [Option.isSome_iff_exists] at hrest
      obtain ⟨bs, hbs⟩ := hrest
      simp only [Forkable.sentChainSegment, ForkDB.blockForID, hb, hbs]
      split <;> simp

/-- `sentChainSwitchSegments` never panics: both id lists handed to
`sentChainSegment` come from `ChainSwitchSegments`, whose every id resolves
in the fork DB. -/
theorem sentChainSwitchSegments_isSome (p : Forkable) (fromId toId : String) :
    (p.sentChainSwitchSegments fromId toId).isSome := by
  unfold Forkable.sentChainSwitchSegments
  by_cases heq : fromId = toId
  · simp [heq]
  · simp only [if_neg heq]
    have hu : (Forkable.sentChainSegment p.forkDB
        (p.forkDB.chainSwitchSegments fromId toId).1 false).isSome :=
      sentChainSegment_isSome _ _ _
        (fun x hx => chainSwitchSegments_lookup_isSome _ _ _ _ (Or.inl hx))
    have hr : (Forkable.sentChainSegment p.forkDB
        (p.forkDB.chainSwitchSegments fromId toId).2 true).isSome :=
      sentChainSegment_isSome _ _ _
        (fun x hx => chainSwitchSegments_lookup_isSome _ _ _ _ (Or.inr hx))
    rw [Option.isSome_iff_exists] at hu hr
    obtain ⟨u, hu⟩ := hu
    obtain ⟨r, hr⟩ := hr
    simp [hu, hr]

/-- `urSegments` never panics. -/
theorem urSegments_isSome (p : Forkable) (blk : Blk) : (p.urSegments blk).isSome := by
  unfold Forkable.urSegments
  split
  · exact sentChainSwitchSegments_isSome _ _ _
  · simp

/-- `processInitialInclusiveIrreversibleBlock` always returns ok. -/
theorem processInitial_outcome (p : Forkable) (blk : Blk) (sendAsNew : Bool) :
    (p.processInitialInclusiveIrreversibleBlock blk sendAsNew).2.2 = .ok := by
  unfold Forkable.processInitialInclusiveIrreversibleBlock
  repeat' split
  all_goals rfl

/-- `emitPhase` always returns ok (the collector handler never errors). -/
theorem emitPhase_outcome (p : Forkable) (blk : Blk) (undos redos chain : List Blk)
    (firstIrr : Option Blk) :
    (p.emitPhase blk undos redos chain firstIrr).2.2 = .ok := by
  simp only [Forkable.emitPhase]
  repeat' split
  all_goals rfl

/-- `computePhase` returns ok or the unlinkable-flood error, never the
panic outcome. -/
theorem computePhase_not_panic (p : Forkable) (blk : Blk) (triggers : Bool)
    (undos redos : List Blk) (firstIrr : Option Blk) :
    (p.computePhase blk triggers undos redos firstIrr).2.2 ≠ .panic := by
  simp only [Forkable.computePhase]
  repeat' split
  all_goals simp [emitPhase_outcome]

/-- `ProcessBlock` never reaches the panic branch: `urSegments` always
resolves. -/
theorem processBlock_not_panic (p : Forkable) (blk : Blk) :
    (p.processBlock blk).2.2 ≠ .panic := by
  simp only [Forkable.processBlock]
  split
  · simp
  · split
    · simp
    · split
      · simp [processInitial_outcome]
      · cases hur : p.urSegments blk with
        | none =>
            have h := urSegments_isSome p blk
            rw [hur] at h
            simp at h
        | some ur =>
            obtain ⟨undos, redos⟩ := ur
            simp only
            cases hlp : p.linkPhase blk with
            | alreadyExists => simp
            | initialEdge p2 => simp [processInitial_outcome]
            | hold p2 => simp
            | proceed p2 fi => simpa using computePhase_not_panic p2 blk _ undos redos fi

/-- C9: every block id returned by `forkDB.ChainSwitchSegments` during a
`ProcessBlock` call resolves to a node present in the fork DB, so the panic
branch of `sentChainSegment` is unreachable through the public
`ProcessBlock` interface; when a lookup does fail, `sentChainSegment`'s
reaction is the Go panic (the distinguished panic outcome), not an error
return. -/
theorem C9_chain_switch_lookup_total :
    (∀ (p : Forkable) (fromId toId : String),
      (p.sentChainSwitchSegments fromId toId).isSome = true) ∧
    (∀ (p : Forkable) (blk : Blk), (p.processBlock blk).2.2 ≠ Outcome.panic) ∧
    Forkable.sentChainSegment ForkDB.new ["ghost"] false = none := by
  exact ⟨fun p a b => sentChainSwitchSegments_isSome p a b,
    fun p blk => processBlock_not_panic p blk, by decide⟩

/-! ### At-most-once New outside the redo path -/

/-- `blockFlowed` only touches the `ensureBlockFlowed` latch. -/
theorem blockFlowed_forkDB (p : Forkable) (b : Blk) :
    (p.blockFlowed b).forkDB = p.forkDB ∧
    (p.blockFlowed b).filterSteps = p.filterSteps := by
  unfold Forkable.blockFlowed
  repeat' split
  all_goals exact ⟨rfl, rfl⟩

/-- The `processNewBlocks` loop emits only `New` steps for blocks whose id
is not yet flagged, with pairwise-distinct ids, and only ever grows the flag
set. -/
theorem processNewBlocksGo_spec (headRef : BlockRef) :
    ∀ (chain : List Blk) (p : Forkable),
      (∀ e ∈ (Forkable.processNewBlocksGo headRef p chain).2,
        e.step = StepKind.new ∧ e.block.id ∉ p.forkDB.sent) ∧
      ((Forkable.processNewBlocksGo headRef p chain).2.map (fun e => e.block.id)).Nodup ∧
      (∀ x ∈ p.forkDB.sent, x ∈ (Forkable.processNewBlocksGo headRef p chain).1.forkDB.sent) := by
  intro chain
  induction chain with
  | nil =>
      intro p
      simp [Forkable.processNewBlocksGo]
  | cons b rest ih =>
      intro p
      by_cases hb : b.id ∈ p.forkDB.sent
      · simpa only [Forkable.processNewBlocksGo, if_pos hb] using ih p
      · simp only [Forkable.processNewBlocksGo, if_neg hb]
        have hdb := (blockFlowed_forkDB p b).1
        set q : Forkable :=
          { p.blockFlowed b with
              forkDB := { (p.blockFlowed b).forkDB with sent := b.id :: (p.blockFlowed b).forkDB.sent }
              lastBlockSent := some b } with hq
        have hqsent : q.forkDB.sent = b.id :: p.forkDB.sent := by
          simp [hq, hdb]
        obtain ⟨ih1, ih2, ih3⟩ := ih q
        refine ⟨?_, ?_, ?_⟩
        · intro e he
          rw [List.mem_append] at he
          rcases he with he | he
          · split at he
            · simp only [List.mem_singleton] at he
              subst he
              exact ⟨rfl, hb⟩
            · simp at he
          · obtain ⟨h1, h2⟩ := ih1 e he
            rw [hqsent] at h2
            exact ⟨h1, fun hx => h2 (List.mem_cons_of_mem _ hx)⟩
        · rw [List.map_append]
          split
          · simp only [List.map_cons, List.map_nil, List.singleton_append, List.nodup_cons]
            refine ⟨?_, ih2⟩
            intro hmem
            rw [List.mem_map] at hmem
            obtain ⟨e, he, hid⟩ := hmem
            have h2 := (ih1 e he).2
            rw [hqsent, hid] at h2
            exact h2 (List.mem_cons_self _ _)
          · simpa using ih2
        · intro x hx
          exact ih3 x (by rw [hqsent]; exact List.mem_cons_of_mem _ hx)

/-- The redo side of `sentChainSegment` keeps only flagged blocks: every
returned block is stored under an id that is in the flag set. -/
theorem sentChainSegment_redos_flagged (db : ForkDB) :
    ∀ (ids : List String) (bs : List Blk),
      Forkable.sentChainSegment db ids true = some bs →
      ∀ b ∈ bs, ∃ id, id ∈ ids ∧ id ∈ db.sent ∧ db.blockForID id = some b := by
  intro ids
  induction ids with
  | nil =>
      intro bs hbs b hb
      simp only [Forkable.sentChainSegment, Option.some.injEq] at hbs
      subst hbs
      simp at hb
  | cons id rest ih =>
      intro bs hbs b hb
      simp only [Forkable.sentChainSegment] at hbs
      split at hbs
      · simp at hbs
      rename_i blk hfind
      split at hbs
      · simp at hbs
      rename_i bs' hrec
      split at hbs
      · rename_i hcond
        injection hbs with hbs
        subst hbs
        obtain ⟨i, hi1, hi2, hi3⟩ := ih bs' hrec b hb
        exact ⟨i, List.mem_cons_of_mem _ hi1, hi2, hi3⟩
      · rename_i hcond
        injection hbs with hbs
        subst hbs
        rcases List.mem_cons.mp hb with rfl | hb
        · refine ⟨id, List.mem_cons_self _ _, ?_, hfind⟩
          by_contra hc
          exact hcond ⟨trivial, hc⟩
        · obtain ⟨i, hi1, hi2, hi3⟩ := ih bs' hrec b hb
          exact ⟨i, List.mem_cons_of_mem _ hi1, hi2, hi3⟩

/-- C1 (amended): at-most-once `New` holds for the `processNewBlocks` path —
it never emits a block whose `sentAsNew` flag is set (its emissions carry
pairwise-distinct ids, none previously flagged, and every emission there is
a `New`); a repeated `New` for an id can therefore occur only through the
redo path after a chain switch, and that path emits only blocks whose flag
is already set, i.e. blocks previously sent as `New`. -/
theorem C1_new_at_most_once_outside_redo :
    (∀ (p : Forkable) (chain : List Blk),
      (∀ e ∈ (p.processNewBlocks chain).2,
        e.step = StepKind.new ∧ e.block.id ∉ p.forkDB.sent) ∧
      ((p.processNewBlocks chain).2.map (fun e => e.block.id)).Nodup) ∧
    (∀ (db : ForkDB) (ids : List String) (bs : List Blk),
      Forkable.sentChainSegment db ids true = some bs →
      ∀ b ∈ bs, ∃ id, id ∈ ids ∧ id ∈ db.sent ∧ db.blockForID id = some b) := by
  constructor
  · intro p chain
    obtain ⟨h1, h2, _⟩ := processNewBlocksGo_spec
      ((chain.getLast?.map Blk.ref).getD BlockRef.empty) chain p
    exact ⟨h1, h2⟩
  · exact fun db => sentChainSegment_redos_flagged db

/-- Witness for the amended C1: a fresh chain block is emitted `New` with
its id unflagged, and the redo path keeps a flagged block, exhibiting the
id under which it is flagged. -/
theorem C1_new_at_most_once_outside_redo_witness :
    ((⟨StepKind.new, ⟨"B", 2⟩, ⟨"B", 2⟩, BlockRef.empty⟩ : Emit).step = StepKind.new ∧
      (⟨StepKind.new, ⟨"B", 2⟩, ⟨"B", 2⟩, BlockRef.empty⟩ : Emit).block.id ∉
        Forkable.new.forkDB.sent) ∧
    (∃ id, id ∈ ["A"] ∧ id ∈ (⟨[("A", ⟨"A", "G", 1, 0⟩)], BlockRef.empty, ["A"]⟩ : ForkDB).sent ∧
      (⟨[("A", ⟨"A", "G", 1, 0⟩)], BlockRef.empty, ["A"]⟩ : ForkDB).blockForID id =
        some ⟨"A", "G", 1, 0⟩) := by
  constructor
  · exact (C1_new_at_most_once_outside_redo.1 Forkable.new [⟨"B", "A", 2, 0⟩]).1
      ⟨StepKind.new, ⟨"B", 2⟩, ⟨"B", 2⟩, BlockRef.empty⟩ (by decide)
  · exact C1_new_at_most_once_outside_redo.2 ⟨[("A", ⟨"A", "G", 1, 0⟩)], BlockRef.empty, ["A"]⟩
      ["A"] [⟨"A", "G", 1, 0⟩] (by decide) ⟨"A", "G", 1, 0⟩ (by decide)

/-! ### Unlinkable-counter bookkeeping -/

/-- `blockFlowed` leaves the unlinkable counter alone. -/
theorem blockFlowed_counter (p : Forkable) (b : Blk) :
    (p.blockFlowed b).consecutiveUnlinkableBlocks = p.consecutiveUnlinkableBlocks := by
  unfold Forkable.blockFlowed
  repeat' split
  all_goals rfl

/-- The `processNewBlocks` loop leaves the unlinkable counter alone. -/
theorem processNewBlocksGo_counter (headRef : BlockRef) :
    ∀ (chain : List Blk) (p : Forkable),
      (Forkable.processNewBlocksGo headRef p chain).1.consecutiveUnlinkableBlocks =
        p.consecutiveUnlinkableBlocks := by
  intro chain
  induction chain with
  | nil => intro p; rfl
  | cons b rest ih =>
      intro p
      by_cases hb : b.id ∈ p.forkDB.sent
      · simpa only [Forkable.processNewBlocksGo, if_pos hb] using ih p
      · simp only [Forkable.processNewBlocksGo, if_neg hb]
        rw [ih]
        exact blockFlowed_counter p b

/-- `processIrreversibleSegment` leaves the unlinkable counter alone. -/
theorem processIrreversibleSegment_counter (p : Forkable) (seg : List Blk) (head : BlockRef) :
    (p.processIrreversibleSegment seg head).1.consecutiveUnlinkableBlocks =
      p.consecutiveUnlinkableBlocks := by
  unfold Forkable.processIrreversibleSegment
  repeat' split
  all_goals rfl

/-- `emitPhase` leaves the unlinkable counter alone. -/
theorem emitPhase_counter (p : Forkable) (blk : Blk) (undos redos chain : List Blk)
    (firstIrr : Option Blk) :
    (p.emitPhase blk undos redos chain firstIrr).1.consecutiveUnlinkableBlocks =
      p.consecutiveUnlinkableBlocks := by
  simp only [Forkable.emitPhase]
  have hpn := processNewBlocksGo_counter
    ((chain.getLast?.map Blk.ref).getD BlockRef.empty) chain p
  repeat' split
  all_goals simp [Forkable.processNewBlocks, processIrreversibleSegment_counter, hpn]

/-- `processInitialInclusiveIrreversibleBlock` leaves the unlinkable counter
alone. -/
theorem processInitial_counter (p : Forkable) (blk : Blk) (sendAsNew : Bool) :
    (p.processInitialInclusiveIrreversibleBlock blk sendAsNew).1.consecutiveUnlinkableBlocks =
      p.consecutiveUnlinkableBlocks := by
  unfold Forkable.processInitialInclusiveIrreversibleBlock
  repeat' split
  all_goals simp [blockFlowed_counter]

/-- Every state the link phase hands on carries the caller's unlinkable
counter. -/
theorem linkPhase_counter (p : Forkable) (blk : Blk) :
    (∀ q, p.linkPhase blk = .initialEdge q →
      q.consecutiveUnlinkableBlocks = p.consecutiveUnlinkableBlocks) ∧
    (∀ q, p.linkPhase blk = .hold q →
      q.consecutiveUnlinkableBlocks = p.consecutiveUnlinkableBlocks) ∧
    (∀ q fi, p.linkPhase blk = .proceed q fi →
      q.consecutiveUnlinkableBlocks = p.consecutiveUnlinkableBlocks) := by
  simp only [Forkable.linkPhase]
  repeat' split
  all_goals refine ⟨fun q h => ?_, fun q h => ?_, fun q fi h => ?_⟩
  all_goals cases h <;> rfl

/-- When the computed chain is nil while a LIB is set, `computePhase`
increments the counter and errors exactly past 20. -/
theorem computePhase_counter_nil (p : Forkable) (blk : Blk) (triggers : Bool)
    (undos redos : List Blk) (fi : Option Blk)
    (hnil : p.computeNewLongestChain blk = none) (hlib : p.forkDB.hasLIB = true) :
    (p.computePhase blk triggers undos redos fi).1.consecutiveUnlinkableBlocks =
      p.consecutiveUnlinkableBlocks + 1 ∧
    ((p.computePhase blk triggers undos redos fi).2.2 =
        Outcome.err "too many consecutive unlinkable blocks" ↔
      p.consecutiveUnlinkableBlocks + 1 > 20) := by
  simp only [Forkable.computePhase]
  split
  · split
    · rename_i hgt
      refine ⟨by simp, ?_⟩
      simp only at hgt ⊢
      constructor
      · intro _; simpa using hgt
      · intro _; trivial
    · rename_i hle
      refine ⟨by simp, ?_⟩
      simp only at hle ⊢
      constructor
      · intro h; cases h
      · intro h; exact absurd (by simpa using h) hle
  · rename_i hcond
    have hfalse : p.forkDB.hasLIB = false := by
      have h' : p.computeNewLongestChain blk = none → p.forkDB.hasLIB = false := by
        simpa using hcond
      exact h' hnil
    rw [hlib] at hfalse
    cases hfalse

/-- In every other case `computePhase` resets the counter to zero. -/
theorem computePhase_counter_reset (p : Forkable) (blk : Blk) (triggers : Bool)
    (undos redos : List Blk) (fi : Option Blk)
    (hother : ¬(p.computeNewLongestChain blk = none ∧ p.forkDB.hasLIB = true)) :
    (p.computePhase blk triggers undos redos fi).1.consecutiveUnlinkableBlocks = 0 := by
  simp only [Forkable.computePhase]
  split
  · rename_i hcond
    exact absurd ⟨by simpa using hcond.1, by simpa using hcond.2⟩ hother
  · split
    · simp
    · simp [emitPhase_counter]

/-- C6 (amended): while a LIB is set, a `ProcessBlock` call that reaches the
longest-chain recomputation and computes a nil chain increments the
consecutive-unlinkable counter and returns the fatal unlinkable-flood error
exactly when the incremented counter exceeds 20; a call that reaches the
recomputation with any other result resets the counter to zero; a call that
returns before the recomputation leaves the counter unchanged. -/
theorem C6_unlinkable_counter (p : Forkable) (blk : Blk) :
    (p.reachesCompute blk = false →
      (p.processBlock blk).1.consecutiveUnlinkableBlocks = p.consecutiveUnlinkableBlocks) ∧
    (p.reachesCompute blk = true → p.computedChain blk = none →
      (p.stateAtCompute blk).forkDB.hasLIB = true →
      (p.processBlock blk).1.consecutiveUnlinkableBlocks = p.consecutiveUnlinkableBlocks + 1 ∧
      ((p.processBlock blk).2.2 = Outcome.err "too many consecutive unlinkable blocks" ↔
        p.consecutiveUnlinkableBlocks + 1 > 20)) ∧
    (p.reachesCompute blk = true →
      ¬(p.computedChain blk = none ∧ (p.stateAtCompute blk).forkDB.hasLIB = true) →
      (p.processBlock blk).1.consecutiveUnlinkableBlocks = 0) := by
  simp only [Forkable.processBlock]
  split
  · rename_i h1
    refine ⟨fun _ => rfl, fun hr => ?_, fun hr => ?_⟩ <;>
      simp [Forkable.reachesCompute, h1] at hr
  split
  · rename_i h1 h2
    refine ⟨fun _ => rfl, fun hr => ?_, fun hr => ?_⟩ <;>
      simp [Forkable.reachesCompute, h1, h2] at hr
  split
  · rename_i h1 h2 h3
    refine ⟨fun _ => processInitial_counter _ _ _, fun hr => ?_, fun hr => ?_⟩ <;>
      simp [Forkable.reachesCompute, h1, h2, h3] at hr
  rename_i h1 h2 h3
  cases hur : p.urSegments blk with
  | none =>
      have h := urSegments_isSome p blk
      rw [hur] at h
      simp at h
  | some ur =>
      obtain ⟨undos, redos⟩ := ur
      simp only
      cases hlp : p.linkPhase blk with
      | alreadyExists =>
          refine ⟨fun _ => rfl, fun hr => ?_, fun hr => ?_⟩ <;>
            simp [Forkable.reachesCompute, h1, h2, h3, hur, hlp] at hr
      | initialEdge p2 =>
          refine ⟨fun _ => (linkPhase_counter p blk).1 p2 hlp ▸ processInitial_counter _ _ _,
            fun hr => ?_, fun hr => ?_⟩ <;>
            simp [Forkable.reachesCompute, h1, h2, h3, hur, hlp] at hr
      | hold p2 =>
          refine ⟨fun _ => (linkPhase_counter p blk).2.1 p2 hlp, fun hr => ?_, fun hr => ?_⟩ <;>
            simp [Forkable.reachesCompute, h1, h2, h3, hur, hlp] at hr
      | proceed p2 fi =>
          have hcnt : p2.consecutiveUnlinkableBlocks = p.consecutiveUnlinkableBlocks :=
            (linkPhase_counter p blk).2.2 p2 fi hlp
          have hstate : p.stateAtCompute blk = p2 := by
            simp [Forkable.stateAtCompute, hlp]
          have hchain : p.computedChain blk = p2.computeNewLongestChain blk := by
            simp [Forkable.computedChain, hstate]
          refine ⟨fun hr => ?_, fun _ hnil hlib => ?_, fun _ hother => ?_⟩
          · simp [Forkable.reachesCompute, h1, h2, h3, hur, hlp] at hr
          · rw [hchain] at hnil
            have hlib' : p2.forkDB.hasLIB = true := hstate ▸ hlib
            obtain ⟨hc, hiff⟩ := computePhase_counter_nil p2 blk
              (p.triggersNewLongestChain blk) undos redos fi hnil hlib'
            rw [hcnt] at hc hiff
            exact ⟨hc, hiff⟩
          · rw [hchain, hstate] at hother
            exact computePhase_counter_reset p2 blk
              (p.triggersNewLongestChain blk) undos redos fi hother

/-- Witness for the amended C6: on the concrete unlinkable run the first
`U1` reaches the recomputation with a nil chain and increments the counter
to 1 without erroring. -/
theorem C6_unlinkable_counter_witness :
    (let st := (Forkable.new.runBlocks [(⟨"A", "G", 1, 1⟩ : Blk)]).1
     (st.processBlock ⟨"U1", "X", 3, 1⟩).1.consecutiveUnlinkableBlocks =
        st.consecutiveUnlinkableBlocks + 1 ∧
      ((st.processBlock ⟨"U1", "X", 3, 1⟩).2.2 =
          Outcome.err "too many consecutive unlinkable blocks" ↔
        st.consecutiveUnlinkableBlocks + 1 > 20)) :=
  (C6_unlinkable_counter (Forkable.new.runBlocks [(⟨"A", "G", 1, 1⟩ : Blk)]).1
    ⟨"U1", "X", 3, 1⟩).2.1 (by decide) (by decide) (by decide)

/-! ### Replay idempotence: what a first `ProcessBlock` call records -/

/-- `AddLink` semantics: `exists` is a pure lookup; on `exists` nothing
changes; on insertion the block is stored under its id and the LIB ref is
untouched. -/
theorem addLink_spec (db : ForkDB) (blk : Blk) :
    ((db.addLink blk).2 = true ↔ (db.entries.lookup blk.id).isSome) ∧
    ((db.addLink blk).2 = true → (db.addLink blk).1 = db) ∧
    ((db.addLink blk).2 = false →
      (db.addLink blk).1.entries.lookup blk.id = some blk) := by
  unfold ForkDB.addLink
  cases h : db.entries.lookup blk.id with
  | none => simp [h]
  | some b => simp [h]

/-- `SetLIB` never changes the stored entries. -/
theorem setLIB_entries (db : ForkDB) (blk : Blk) : (db.setLIB blk).entries = db.entries := by
  unfold ForkDB.setLIB
  repeat' split
  all_goals rfl

/-- Every state the link phase hands on after an insertion stores the
incoming block under its id. -/
theorem linkPhase_stores (p : Forkable) (blk : Blk) :
    (∀ q, p.linkPhase blk = .initialEdge q →
      q.forkDB.entries.lookup blk.id = some blk) ∧
    (∀ q, p.linkPhase blk = .hold q →
      q.forkDB.entries.lookup blk.id = some blk) ∧
    (∀ q fi, p.linkPhase blk = .proceed q fi →
      q.forkDB.entries.lookup blk.id = some blk) := by
  cases hex : (p.forkDB.addLink blk).2 with
  | true =>
      have hlp : p.linkPhase blk = .alreadyExists := by
        simp [Forkable.linkPhase, hex]
      refine ⟨fun q h => ?_, fun q h => ?_, fun q fi h => ?_⟩
      all_goals (rw [hlp] at h; cases h)
  | false =>
      have hstore := (addLink_spec p.forkDB blk).2.2 hex
      simp only [Forkable.linkPhase, hex]
      repeat' split
      all_goals refine ⟨fun q h => ?_, fun q h => ?_, fun q fi h => ?_⟩
      all_goals cases h <;>
        first
          | exact hstore
          | (simp only [setLIB_entries]; exact hstore)

/-- `List.lookup` after a `filter`: a stored binding either survives (some
binding for the key remains) or its own value was filtered out. -/
theorem lookup_filter_or {α β : Type} [DecidableEq α] (f : α × β → Bool) (x : α) (b : β) :
    ∀ l : List (α × β), l.lookup x = some b →
      ((l.filter f).lookup x).isSome ∨ f (x, b) = false := by
  intro l
  induction l with
  | nil => intro h; simp [List.lookup] at h
  | cons e rest ih =>
      intro h
      obtain ⟨k, v⟩ := e
      cases hk : x == k with
      | true =>
          have hxk : x = k := by simpa using hk
          have hvb : v = b := by
            have h' := h
            simp only [List.lookup, hk] at h'
            exact Option.some.inj h'
          cases hfv : f (k, v) with
          | true =>
              left
              rw [List.filter_cons, if_pos (by simpa using hfv)]
              simp [List.lookup, hk]
          | false =>
              right
              subst hxk
              rw [hvb] at hfv
              exact hfv
      | false =>
          have h' : rest.lookup x = some b := by
            simpa only [List.lookup, hk] using h
          rcases ih h' with hs | hf
          · left
            rw [List.filter_cons]
            split
            · simpa [List.lookup, hk] using hs
            · exact hs
          · exact Or.inr hf

/-- `processNewBlocks` never touches the stored entries or the LIB ref. -/
theorem processNewBlocksGo_entries (headRef : BlockRef) :
    ∀ (chain : List Blk) (p : Forkable),
      (Forkable.processNewBlocksGo headRef p chain).1.forkDB.entries = p.forkDB.entries ∧
      (Forkable.processNewBlocksGo headRef p chain).1.forkDB.libRef = p.forkDB.libRef := by
  intro chain
  induction chain with
  | nil => intro p; exact ⟨rfl, rfl⟩
  | cons b rest ih =>
      intro p
      by_cases hb : b.id ∈ p.forkDB.sent
      · simpa only [Forkable.processNewBlocksGo, if_pos hb] using ih p
      · simp only [Forkable.processNewBlocksGo, if_neg hb]
        obtain ⟨h1, h2⟩ := ih _
        rw [h1, h2]
        exact (blockFlowed_forkDB p b).1 ▸ ⟨rfl, rfl⟩

/-- `processIrreversibleSegment` only updates `lastLIBSeen`. -/
theorem processIrreversibleSegment_state (p : Forkable) (seg : List Blk) (head : BlockRef) :
    (p.processIrreversibleSegment seg head).1.forkDB = p.forkDB ∧
    (p.processIrreversibleSegment seg head).1.lastBlockSent = p.lastBlockSent := by
  unfold Forkable.processIrreversibleSegment
  repeat' split
  all_goals exact ⟨rfl, rfl⟩

/-- `blockFlowed` leaves the `includeInitialLIB` configuration alone. -/
theorem blockFlowed_incl (p : Forkable) (b : Blk) :
    (p.blockFlowed b).includeInitialLIB = p.includeInitialLIB := by
  unfold Forkable.blockFlowed
  repeat' split
  all_goals rfl

/-- The `processNewBlocks` loop leaves `includeInitialLIB` alone. -/
theorem processNewBlocksGo_incl (headRef : BlockRef) :
    ∀ (chain : List Blk) (p : Forkable),
      (Forkable.processNewBlocksGo headRef p chain).1.includeInitialLIB =
        p.includeInitialLIB := by
  intro chain
  induction chain with
  | nil => intro p; rfl
  | cons b rest ih =>
      intro p
      by_cases hb : b.id ∈ p.forkDB.sent
      · simpa only [Forkable.processNewBlocksGo, if_pos hb] using ih p
      · simp only [Forkable.processNewBlocksGo, if_neg hb]
        rw [ih]
        exact blockFlowed_incl p b

/-- `processIrreversibleSegment` leaves `includeInitialLIB` alone. -/
theorem processIrreversibleSegment_incl (p : Forkable) (seg : List Blk) (head : BlockRef) :
    (p.processIrreversibleSegment seg head).1.includeInitialLIB = p.includeInitialLIB := by
  unfold Forkable.processIrreversibleSegment
  repeat' split
  all_goals rfl

/-- `emitPhase` leaves `includeInitialLIB` alone. -/
theorem emitPhase_incl (p : Forkable) (blk : Blk) (undos redos chain : List Blk)
    (firstIrr : Option Blk) :
    (p.emitPhase blk undos redos chain firstIrr).1.includeInitialLIB =
      p.includeInitialLIB := by
  simp only [Forkable.emitPhase]
  have hpn := processNewBlocksGo_incl
    ((chain.getLast?.map Blk.ref).getD BlockRef.empty) chain p
  repeat' split
  all_goals simp [Forkable.processNewBlocks, processIrreversibleSegment_incl, hpn]

/-- `processInitialInclusiveIrreversibleBlock` leaves `includeInitialLIB`
alone. -/
theorem processInitial_incl (p : Forkable) (blk : Blk) (sendAsNew : Bool) :
    (p.processInitialInclusiveIrreversibleBlock blk sendAsNew).1.includeInitialLIB =
      p.includeInitialLIB := by
  unfold Forkable.processInitialInclusiveIrreversibleBlock
  repeat' split
  all_goals simp [blockFlowed_incl]

/-- `processInitialInclusiveIrreversibleBlock` leaves the fork DB alone. -/
theorem processInitial_forkDB (p : Forkable) (blk : Blk) (sendAsNew : Bool) :
    (p.processInitialInclusiveIrreversibleBlock blk sendAsNew).1.forkDB = p.forkDB := by
  unfold Forkable.processInitialInclusiveIrreversibleBlock
  repeat' split
  all_goals simp [(blockFlowed_forkDB p blk).1]

/-- Every state the link phase hands on carries the caller's
`includeInitialLIB`. -/
theorem linkPhase_incl (p : Forkable) (blk : Blk) :
    (∀ q, p.linkPhase blk = .initialEdge q →
      q.includeInitialLIB = p.includeInitialLIB) ∧
    (∀ q, p.linkPhase blk = .hold q →
      q.includeInitialLIB = p.includeInitialLIB) ∧
    (∀ q fi, p.linkPhase blk = .proceed q fi →
      q.includeInitialLIB = p.includeInitialLIB) := by
  simp only [Forkable.linkPhase]
  repeat' split
  all_goals refine ⟨fun q h => ?_, fun q h => ?_, fun q fi h => ?_⟩
  all_goals cases h <;> rfl

/-- `computePhase` leaves `includeInitialLIB` alone. -/
theorem computePhase_incl (p : Forkable) (blk : Blk) (triggers : Bool)
    (undos redos : List Blk) (fi : Option Blk) :
    (p.computePhase blk triggers undos redos fi).1.includeInitialLIB =
      p.includeInitialLIB := by
  simp only [Forkable.computePhase]
  repeat' split
  all_goals simp [emitPhase_incl]

/-- `ProcessBlock` leaves `includeInitialLIB` alone. -/
theorem processBlock_incl (p : Forkable) (blk : Blk) :
    (p.processBlock blk).1.includeInitialLIB = p.includeInitialLIB := by
  simp only [Forkable.processBlock]
  split
  · rfl
  split
  · rfl
  split
  · exact processInitial_incl _ _ _
  cases hur : p.urSegments blk with
  | none => rfl
  | some ur =>
      obtain ⟨undos, redos⟩ := ur
      simp only
      cases hlp : p.linkPhase blk with
      | alreadyExists => rfl
      | initialEdge p2 =>
          rw [processInitial_incl]
          exact (linkPhase_incl p blk).1 p2 hlp
      | hold p2 => exact (linkPhase_incl p blk).2.1 p2 hlp
      | proceed p2 fi =>
          rw [computePhase_incl]
          exact (linkPhase_incl p blk).2.2 p2 fi hlp

/-- `linkPhase` reports `alreadyExists` exactly when `AddLink` found the
id. -/
theorem linkPhase_alreadyExists_iff (p : Forkable) (blk : Blk) :
    p.linkPhase blk = .alreadyExists ↔ (p.forkDB.addLink blk).2 = true := by
  cases hex : (p.forkDB.addLink blk).2 with
  | true => simp [Forkable.linkPhase, hex]
  | false =>
      constructor
      · intro h
        simp only [Forkable.linkPhase, hex] at h
        repeat' split at h
        all_goals simp_all
      · intro h
        simp at h

/-- After `emitPhase`, the incoming block either is still stored or was
purged below the new LIB while `lastBlockSent` is set. -/
theorem emitPhase_keeps (p : Forkable) (blk : Blk) (undos redos chain : List Blk)
    (fi : Option Blk) (hstore : p.forkDB.entries.lookup blk.id = some blk) :
    (((p.emitPhase blk undos redos chain fi).1.forkDB.entries.lookup blk.id).isSome = true) ∨
    (blk.num < (p.emitPhase blk undos redos chain fi).1.forkDB.libNum ∧
      (p.emitPhase blk undos redos chain fi).1.lastBlockSent.isSome = true) := by
  obtain ⟨hent, hlib⟩ := processNewBlocksGo_entries
    ((chain.getLast?.map Blk.ref).getD BlockRef.empty) chain p
  simp only [Forkable.emitPhase]
  split
  · left
    simp only [Forkable.processNewBlocks, hent, hstore, Option.isSome_some]
  rename_i p4head hp4head
  split
  · left
    simp only [Forkable.processNewBlocks, hent, hstore, Option.isSome_some]
  split
  · left
    simp only [Forkable.processNewBlocks, hent, hstore, Option.isSome_some]
  split
  · left
    simp only [Forkable.processNewBlocks, hent, hstore, Option.isSome_some]
  · have hstore4 : (Forkable.processNewBlocks p chain).1.forkDB.entries.lookup blk.id
        = some blk := by
      simp only [Forkable.processNewBlocks, hent, hstore]
    rcases lookup_filter_or
        (fun e => !decide (e.2.num <
          ((Forkable.processNewBlocks p chain).1.forkDB.moveLIB
            ((Forkable.processNewBlocks p chain).1.forkDB.blockInCurrentChain
              p4head.ref p4head.libNum)).libRef.num -
          (Forkable.processNewBlocks p chain).1.keptFinalBlocks))
        blk.id blk _ hstore4 with hs | hf
    · left
      rw [(processIrreversibleSegment_state _ _ _).1]
      exact hs
    · right
      rw [(processIrreversibleSegment_state _ _ _).1,
        (processIrreversibleSegment_state _ _ _).2]
      constructor
      · simp only [Bool.not_eq_false', decide_eq_true_eq] at hf
        exact lt_of_lt_of_le hf (Nat.sub_le _ _)
      · rw [hp4head]
        rfl

/-- After `computePhase`, the incoming block either is still stored or was
purged below the new LIB while `lastBlockSent` is set. -/
theorem computePhase_keeps (p : Forkable) (blk : Blk) (triggers : Bool)
    (undos redos : List Blk) (fi : Option Blk)
    (hstore : p.forkDB.entries.lookup blk.id = some blk) :
    (((p.computePhase blk triggers undos redos fi).1.forkDB.entries.lookup blk.id).isSome
      = true) ∨
    (blk.num < (p.computePhase blk triggers undos redos fi).1.forkDB.libNum ∧
      (p.computePhase blk triggers undos redos fi).1.lastBlockSent.isSome = true) := by
  simp only [Forkable.computePhase]
  split
  · split
    · left; simp [hstore]
    · left; simp [hstore]
  · split
    · left; simp [hstore]
    · exact emitPhase_keeps _ blk undos redos _ fi hstore

/-- What a first ungated `ProcessBlock` call records: either the block is in
the fork DB afterwards, or it was purged below the LIB with
`lastBlockSent` set — so a replay is gated or deduplicated. -/
theorem processBlock_records (p : Forkable) (blk : Blk)
    (hid : blk.id ≠ blk.previousId) (hincl : p.includeInitialLIB = false)
    (hgate : ¬(blk.num < p.forkDB.libNum ∧ p.lastBlockSent.isSome = true)) :
    (((p.processBlock blk).1.forkDB.entries.lookup blk.id).isSome = true) ∨
    (blk.num < (p.processBlock blk).1.forkDB.libNum ∧
      (p.processBlock blk).1.lastBlockSent.isSome = true) := by
  have hshort : ¬(p.includeInitialLIB = true ∧ p.lastBlockSent = none ∧
      blk.id = p.forkDB.libID) := by
    rintro ⟨h, _, _⟩
    rw [hincl] at h
    cases h
  simp only [Forkable.processBlock, if_neg hid, if_neg hgate, if_neg hshort]
  cases hur : p.urSegments blk with
  | none =>
      have h := urSegments_isSome p blk
      rw [hur] at h
      simp at h
  | some ur =>
      obtain ⟨undos, redos⟩ := ur
      simp only
      cases hlp : p.linkPhase blk with
      | alreadyExists =>
          left
          exact (addLink_spec p.forkDB blk).1.mp
            ((linkPhase_alreadyExists_iff p blk).mp hlp)
      | initialEdge p2 =>
          left
          rw [processInitial_forkDB, (linkPhase_stores p blk).1 p2 hlp]
          rfl
      | hold p2 =>
          left
          rw [(linkPhase_stores p blk).2.1 p2 hlp]
          rfl
      | proceed p2 fi =>
          exact computePhase_keeps p2 blk _ undos redos fi
            ((linkPhase_stores p blk).2.2 p2 fi hlp)

/-- The second of two identical `ProcessBlock` calls emits nothing and
returns ok (shared between the replay-idempotence parts). -/
theorem processBlock_replay_aux (p : Forkable) (blk : Blk)
    (hid : blk.id ≠ blk.previousId) (hincl : p.includeInitialLIB = false) :
    ((p.processBlock blk).1.processBlock blk).2.1 = [] ∧
    ((p.processBlock blk).1.processBlock blk).2.2 = Outcome.ok := by
  set p1 := (p.processBlock blk).1 with hp1
  by_cases hgate2 : blk.num < p1.forkDB.libNum ∧ p1.lastBlockSent.isSome = true
  · simp [Forkable.processBlock, hid, hgate2]
  by_cases hgate1 : blk.num < p.forkDB.libNum ∧ p.lastBlockSent.isSome = true
  · have hpp : p1 = p := by
      rw [hp1]
      simp [Forkable.processBlock, hid, hgate1]
    rw [hpp] at hgate2
    exact absurd hgate1 hgate2
  have hrec := processBlock_records p blk hid hincl hgate1
  rw [← hp1] at hrec
  rcases hrec with hstore | hrec
  · have hincl1 : p1.includeInitialLIB = false := by
      rw [hp1, processBlock_incl]
      exact hincl
    have hshort : ¬(p1.includeInitialLIB = true ∧ p1.lastBlockSent = none ∧
        blk.id = p1.forkDB.libID) := by
      rintro ⟨h, _, _⟩
      rw [hincl1] at h
      cases h
    rw [Option.isSome_iff_exists] at hstore
    obtain ⟨b', hb'⟩ := hstore
    have hlp : p1.linkPhase blk = .alreadyExists := by
      rw [linkPhase_alreadyExists_iff]
      exact ((addLink_spec _ blk).1.mpr (by simp [hb']))
    simp only [Forkable.processBlock, if_neg hid, if_neg hgate2, if_neg hshort]
    cases hur : p1.urSegments blk with
    | none =>
        have h := urSegments_isSome p1 blk
        rw [hur] at h
        simp at h
    | some ur =>
        obtain ⟨undos, redos⟩ := ur
        simp only [hur, hlp]
        exact ⟨trivial, trivial⟩
  · exact absurd hrec hgate2

/-- C3 (amended): for every prior state and every block `b` with
`b.id ≠ b.previous_id`, on a `Forkable` without `include_initial_lib`,
processing `b` twice in a row produces exactly the same sequence of
downstream emissions as processing `b` once — the second call returns ok
and emits nothing. -/
theorem C3_replay_idempotent (p : Forkable) (blk : Blk)
    (hid : blk.id ≠ blk.previousId) (hincl : p.includeInitialLIB = false) :
    ((p.processBlock blk).1.processBlock blk).2.1 = [] ∧
    ((p.processBlock blk).1.processBlock blk).2.2 = Outcome.ok ∧
    (p.runBlocks [blk, blk]).2 = (p.runBlocks [blk]).2 := by
  obtain ⟨h1, h2⟩ := processBlock_replay_aux p blk hid hincl
  refine ⟨h1, h2, ?_⟩
  simp only [Forkable.runBlocks, List.foldl_cons, List.foldl_nil, List.nil_append]
  rw [h1]
  simp

/-- Witness for the amended C3: replaying a fresh linkable block on the
default `Forkable`. -/
theorem C3_replay_idempotent_witness :
    ((Forkable.new.processBlock ⟨"B1", "G", 1, 1⟩).1.processBlock ⟨"B1", "G", 1, 1⟩).2.1 = [] ∧
    ((Forkable.new.processBlock ⟨"B1", "G", 1, 1⟩).1.processBlock ⟨"B1", "G", 1, 1⟩).2.2 =
      Outcome.ok ∧
    (Forkable.new.runBlocks [(⟨"B1", "G", 1, 1⟩ : Blk), ⟨"B1", "G", 1, 1⟩]).2 =
      (Forkable.new.runBlocks [(⟨"B1", "G", 1, 1⟩ : Blk)]).2 :=
  C3_replay_idempotent Forkable.new ⟨"B1", "G", 1, 1⟩ (by decide) (by decide)

/-! ### BlocksFromFinal -/

/-- The label `BlocksFromFinal` attaches to a segment block once the queried
ref has been seen: `NewIrreversible` up to the LIB number, `New` above it,
with `lastLIBSent` never exceeding the block's own number. -/
def finalLabel (p : Forkable) (head : BlockRef) (b : Blk) : Emit :=
  ⟨if b.num ≤ p.forkDB.libNum then StepKind.newIrreversible else StepKind.new,
    b.ref, head,
    if p.forkDB.libRef.num > b.num then b.ref else p.forkDB.libRef⟩

/-- Once `seen` is latched, the `BlocksFromFinal` loop labels every
remaining segment block. -/
theorem bffStep_seen (p : Forkable) (r : BlockRef) (head : Blk) :
    ∀ (seg : List Blk) (acc : List Emit),
      (seg.foldl (p.bffStep r head) (true, acc)).2 =
        acc ++ seg.map (finalLabel p head.ref) := by
  intro seg
  induction seg with
  | nil => intro acc; simp
  | cons b rest ih =>
      intro acc
      simp only [List.foldl_cons, List.map_cons]
      have hstep : p.bffStep r head (true, acc) b =
          (true, acc ++ [finalLabel p head.ref b]) := by
        simp [Forkable.bffStep, finalLabel]
      rw [hstep, ih]
      simp

/-- The `BlocksFromFinal` loop returns exactly the labelled suffix of the
segment starting at the first block matching the queried ref. -/
theorem bffStep_spec (p : Forkable) (r : BlockRef) (head : Blk) :
    ∀ seg : List Blk,
      (seg.foldl (p.bffStep r head) (false, [])).2 =
        (seg.dropWhile
          (fun b => !(decide (b.num = r.num) && decide (b.id = r.id)))).map
          (finalLabel p head.ref) := by
  intro seg
  induction seg with
  | nil => simp
  | cons b rest ih =>
      simp only [List.foldl_cons, List.dropWhile_cons]
      cases hm : (decide (b.num = r.num) && decide (b.id = r.id)) with
      | true =>
          have hstep : p.bffStep r head (false, []) b =
              (true, [finalLabel p head.ref b]) := by
            simp [Forkable.bffStep, finalLabel, hm]
          rw [hstep]
          simp only [hm, Bool.not_true, Bool.false_eq_true, if_false, List.map_cons]
          rw [bffStep_seen]
          simp
      | false =>
          have hstep : p.bffStep r head (false, []) b = (false, []) := by
            simp [Forkable.bffStep, hm]
          rw [hstep, ih]
          simp [hm]

/-- The clamp of `finalLabel`: the attached `lastLIBSent` never exceeds the
block's own number. -/
theorem finalLabel_clamp (p : Forkable) (head : BlockRef) (b : Blk) :
    (finalLabel p head b).lib.num ≤ (finalLabel p head b).block.num := by
  unfold finalLabel
  simp only
  split
  · exact le_refl _
  · rename_i h
    simpa [Blk.ref] using Nat.le_of_not_lt h

/-- C7: when the fork DB has a LIB, a longest chain is cached, the complete
segment from `last_block_sent` reaches the LIB, `BlocksFromFinal(ref)`
returns exactly the blocks of that segment from the first occurrence of
`ref` to the head, in order, labelled `NewIrreversible` while their number
is at most the fork DB's LIB number and `New` above it, each carrying a
`lastLIBSent` that never exceeds the block's own number; in the remaining
cases it returns nil. -/
theorem C7_blocks_from_final (p : Forkable) (r : BlockRef) (head : Blk)
    (hsent : p.lastBlockSent = some head) :
    (p.forkDB.hasLIB = true → p.lastLongestChain ≠ none →
      (p.forkDB.completeSegment head.ref).2 = true →
      p.blocksFromFinal r = some
        (((p.forkDB.completeSegment head.ref).1.dropWhile
            (fun b => !(decide (b.num = r.num) && decide (b.id = r.id)))).map
          (finalLabel p head.ref)) ∧
      (∀ e ∈ (p.blocksFromFinal r).getD [], e.lib.num ≤ e.block.num)) ∧
    (p.forkDB.hasLIB = false → p.blocksFromFinal r = some []) ∧
    (p.lastLongestChain = none → p.blocksFromFinal r = some []) ∧
    (p.forkDB.hasLIB = true → (p.forkDB.completeSegment head.ref).2 = false →
      p.blocksFromFinal r = some []) := by
  refine ⟨fun hlib hcache hreach => ?_, fun hnolib => ?_, fun hnone => ?_,
    fun hlib hnoreach => ?_⟩
  · cases hc : p.lastLongestChain with
    | none => exact absurd hc hcache
    | some c =>
        have heq : p.blocksFromFinal r = some
            (((p.forkDB.completeSegment head.ref).1.dropWhile
                (fun b => !(decide (b.num = r.num) && decide (b.id = r.id)))).map
              (finalLabel p head.ref)) := by
          simp only [Forkable.blocksFromFinal, hlib, hc, hsent, hreach]
          simp [bffStep_spec]
        refine ⟨heq, ?_⟩
        rw [heq]
        intro e he
        simp only [Option.getD_some, List.mem_map] at he
        obtain ⟨b, _, hb⟩ := he
        rw [← hb]
        exact finalLabel_clamp p head.ref b
  · simp [Forkable.blocksFromFinal, hnolib]
  · simp [Forkable.blocksFromFinal, hnone]
  · simp only [Forkable.blocksFromFinal, hlib, hsent, hnoreach]
    cases p.lastLongestChain <;> simp

/-- Witness for C7: after `B1, B2` the LIB is `B1` and querying from `B1`
returns the labelled segment. -/
theorem C7_blocks_from_final_witness :
    (let st := (Forkable.new.runBlocks [(⟨"B1", "G", 1, 1⟩ : Blk), ⟨"B2", "B1", 2, 1⟩]).1
     st.blocksFromFinal ⟨"B1", 1⟩ = some
        (((st.forkDB.completeSegment (⟨"B2", "B1", 2, 1⟩ : Blk).ref).1.dropWhile
            (fun b => !(decide (b.num = (⟨"B1", 1⟩ : BlockRef).num) &&
              decide (b.id = (⟨"B1", 1⟩ : BlockRef).id)))).map
          (finalLabel st (⟨"B2", "B1", 2, 1⟩ : Blk).ref)) ∧
     (∀ e ∈ (st.blocksFromFinal ⟨"B1", 1⟩).getD [], e.lib.num ≤ e.block.num)) :=
  (C7_blocks_from_final
      (Forkable.new.runBlocks [(⟨"B1", "G", 1, 1⟩ : Blk), ⟨"B2", "B1", 2, 1⟩]).1
      ⟨"B1", 1⟩ ⟨"B2", "B1", 2, 1⟩ (by decide)).1 (by decide) (by decide) (by decide)

/-! ### lookupBlockIndex -/

/-- Per-bundle equivalence of the source loop with the claim's description:
as long as the scan has not passed the start block, "the original base is at
or below `start_block_num`" and "the bundle contains `start_block_num`"
coincide (the indexed blocks of the bundle lie in
`[base, base + bundle_size)`). -/
theorem bundleOut_eq_spec (s : FileSource) (inBase base : Nat)
    (hin : inBase ≤ base)
    (hP : inBase ≤ s.startBlockNum → base ≤ s.startBlockNum) :
    ∀ blocks : List Nat, (∀ b ∈ blocks, base ≤ b ∧ b < base + s.bundleSize) →
      ∀ acc, s.bundleOut inBase blocks acc = s.specBundleOut base blocks acc := by
  intro blocks
  induction blocks with
  | nil => intro _ acc; rfl
  | cons blk rest ih =>
      intro hb acc
      have hblk := hb blk (List.mem_cons_self blk rest)
      have hrest := fun b hb' => hb b (List.mem_cons_of_mem blk hb')
      simp only [FileSource.bundleOut, FileSource.specBundleOut]
      by_cases hlt : blk < s.startBlockNum
      · rw [if_pos hlt, if_pos hlt]
        exact ih hrest acc
      · rw [if_neg hlt, if_neg hlt]
        have hcond : (inBase ≤ s.startBlockNum ∧ blk > s.startBlockNum ∧ acc = []) ↔
            ((base ≤ s.startBlockNum ∧ s.startBlockNum < base + s.bundleSize) ∧
              blk > s.startBlockNum ∧ acc = []) := by
          constructor
          · rintro ⟨h1, h2, h3⟩
            exact ⟨⟨hP h1, lt_of_lt_of_le (lt_of_le_of_lt (Nat.le_of_lt h2) hblk.2)
              (le_refl _)⟩, h2, h3⟩
          · rintro ⟨⟨h1, _⟩, h2, h3⟩
            exact ⟨le_trans hin h1, h2, h3⟩
        rw [if_congr hcond rfl rfl]
        by_cases hstop : s.stopBlockNum ≠ 0 ∧ blk ≥ s.stopBlockNum
        · rw [if_pos hstop, if_pos hstop]
        · rw [if_neg hstop, if_neg hstop]
          exact ih hrest _

/-- The bundle scan of the source equals the claim's description, provided
the indexer honours its interface contract. -/
theorem lookupGo_eq_spec (s : FileSource)
    (hcontract : ∀ base b, b ∈ s.indexer base s.bundleSize →
      base ≤ b ∧ b < base + s.bundleSize) (inBase : Nat) :
    ∀ fuel base, inBase ≤ base → (inBase ≤ s.startBlockNum → base ≤ s.startBlockNum) →
      s.lookupGo inBase fuel base = s.specLookupGo fuel base := by
  intro fuel
  induction fuel with
  | zero => intro base _ _; rfl
  | succ n ih =>
      intro base hin hP
      have hbundle : s.bundleOut inBase (s.indexer base s.bundleSize) [] =
          s.specBundleOut base (s.indexer base s.bundleSize) [] :=
        bundleOut_eq_spec s inBase base hin hP _ (hcontract base) []
      simp only [FileSource.lookupGo, FileSource.specLookupGo, hbundle]
      by_cases hout : s.specBundleOut base (s.indexer base s.bundleSize) [] ≠ []
      · rw [if_pos hout, if_pos hout]
      · rw [if_neg hout, if_neg hout]
        by_cases hcs : base ≤ s.startBlockNum ∧ base + s.bundleSize > s.startBlockNum <;>
          by_cases hcp : s.stopBlockNum ≠ 0 ∧ base ≤ s.stopBlockNum ∧
            base + s.bundleSize > s.stopBlockNum
        · simp [hcs, hcp]
        · simp [hcs, hcp]
        · simp [hcs, hcp]
        · have hrec := ih (base + s.bundleSize) (le_trans hin (Nat.le_add_right _ _))
            (fun hstart => by
              have hbase := hP hstart
              by_contra hgt
              exact hcs ⟨hbase, by omega⟩)
          simp [hcs, hcp, hrec]

/-- The scan never produces an error value: only the entry gate errors. -/
theorem lookupGo_no_error (s : FileSource) (inBase : Nat) :
    ∀ fuel base msg, s.lookupGo inBase fuel base ≠ some (.error msg) := by
  intro fuel
  induction fuel with
  | zero => intro base msg h; cases h
  | succ n ih =>
      intro base msg h
      simp only [FileSource.lookupGo] at h
      repeat' split at h
      all_goals first
        | (cases h)
        | (exact ih _ _ h)

/-- C8: with a block indexer honouring its interface contract,
`lookupBlockIndex(base)` errors exactly when `stop_block_num ≠ 0` and
`base > stop_block_num`; otherwise it scans forward bundle by bundle and
(whenever the scan terminates within the given fuel) returns exactly what
the claim describes: the first bundle yielding a non-empty list built from
its indexed blocks with blocks below `start_block_num` dropped,
`start_block_num` prepended when the bundle contains it and nothing was
yielded yet, `stop_block_num` appended (stopping that bundle's scan) at the
first indexed block at or above it, and, for a bundle yielding no indexed
blocks but overlapping a sentinel, the minimal list of those sentinels. -/
theorem C8_lookup_block_index (s : FileSource)
    (hcontract : ∀ base b, b ∈ s.indexer base s.bundleSize →
      base ≤ b ∧ b < base + s.bundleSize) (fuel inBase : Nat) :
    ((∃ msg, s.lookupBlockIndex fuel inBase = some (.error msg)) ↔
      (s.stopBlockNum ≠ 0 ∧ inBase > s.stopBlockNum)) ∧
    s.lookupBlockIndex fuel inBase = s.specLookupBlockIndex fuel inBase := by
  constructor
  · constructor
    · rintro ⟨msg, hmsg⟩
      by_contra hgate
      rw [FileSource.lookupBlockIndex, if_neg hgate] at hmsg
      exact lookupGo_no_error s inBase fuel inBase msg hmsg
    · intro hgate
      exact ⟨_, by rw [FileSource.lookupBlockIndex, if_pos hgate]⟩
  · unfold FileSource.lookupBlockIndex FileSource.specLookupBlockIndex
    split
    · rfl
    · exact lookupGo_eq_spec s hcontract inBase fuel inBase (le_refl _) (fun h => h)

/-- Witness for C8 at a concrete indexer (one block per bundle, just above
the base). -/
theorem C8_lookup_block_index_witness :
    (let s : FileSource := ⟨5, 250, 100, fun base _ => [base + 1]⟩
     ((∃ msg, s.lookupBlockIndex 4 0 = some (.error msg)) ↔
        (s.stopBlockNum ≠ 0 ∧ 0 > s.stopBlockNum)) ∧
      s.lookupBlockIndex 4 0 = s.specLookupBlockIndex 4 0) :=
  C8_lookup_block_index ⟨5, 250, 100, fun base _ => [base + 1]⟩
    (fun base b hb => by
      simp only [List.mem_singleton] at hb
      subst hb
      refine ⟨Nat.le_succ base, ?_⟩
      show base + 1 < base + 100
      omega) 4 0

end Bstream
